import Mathlib

set_option linter.unusedVariables false
set_option linter.unusedSectionVars false

/-! # Confidential value range proofs (`crypto/ca/vrp.go`)

A shallow embedding of `CreateValueRangeProof`, `ValueRangeProof.Validate`,
`vrpMsgHash` and `vrpCalcPQ`.

* Scalars live in a field `S`, curve points in an additive group `P` that is an
  `S`-module (`ScMul` is `•`).  A `PointPair` is `P × P` with component-wise
  arithmetic; asset and value commitments are point pairs (`H() = .1`, `C() = .2`).
* `uint64` values are natural numbers, reduced modulo `2 ^ 64` where the Go
  arithmetic can wrap.
* A Go panic is `Except.error`.
* The hash, packet-encryption and ring-signature capabilities that `vrp.go`
  calls but does not define are the fields of `Caps`.
* The commitment engine and the value-encryption engine (`CreateAssetCommitment`,
  `CreateValueCommitment`, `EncryptValue`, `DecryptValue`) have no code in the
  source tree; they are modelled from the spec over the capabilities `ValueCaps`.
-/

namespace ca

/-! ## Machine integers and byte buffers -/

/-- An 8-bit byte. -/
abbrev Byte := Fin 256

/-- A Go byte slice. -/
abbrev Bytes := List Byte

/-- The Go array type `[32]byte`. -/
abbrev Block32 := {b : Bytes // b.length = 32}

/-- The all-zero `[32]byte`. -/
def zero32 : Block32 := ⟨List.replicate 32 0, by simp⟩

/-- Truncation of a natural number to `uint64`. -/
def u64 (x : Nat) : Nat := x % 2 ^ 64

/-- Wrapping `uint64` subtraction `a - b`. -/
def u64sub (a b : Nat) : Nat :=
  if b % 2 ^ 64 ≤ a % 2 ^ 64 then a % 2 ^ 64 - b % 2 ^ 64
  else a % 2 ^ 64 + 2 ^ 64 - b % 2 ^ 64

/-- Go's `a << s` on `uint64`: a shift count of 64 or more gives 0. -/
def u64shl (a s : Nat) : Nat := if 64 ≤ s then 0 else (a <<< s) % 2 ^ 64

/-- Go's `copy(dst, src)`: the new contents of `dst`, of unchanged length, after
`min (len dst) (len src)` elements have been copied. -/
def goCopy (dst src : Bytes) : Bytes := src.take dst.length ++ dst.drop src.length

/-- Go's slice expression `xs[lo:hi]`, which panics when out of range. -/
def sliceBytes (xs : Bytes) (lo hi : Nat) : Except String Bytes :=
  if lo ≤ hi ∧ hi ≤ xs.length then .ok ((xs.drop lo).take (hi - lo))
  else .error "slice bounds out of range"

/-- Modelled from the spec: `uint64le` is defined in package `ca` outside `vrp.go`;
the spec says the integers are "encoded as fixed-width little-endian 64-bit
integers", so this is the 8 bytes of `x`, least significant first. -/
def uint64le (x : Nat) : Bytes :=
  (List.range 8).map (fun i => (⟨(x / 256 ^ i) % 256, Nat.mod_lt _ (by decide)⟩ : Byte))

/-! ## Data model -/

/-- Go's `type PointPair [2]ecmath.Point`, with component-wise arithmetic. -/
abbrev PointPair (P : Type) := P × P

/-- The packet returned by `EncryptPacket`. -/
structure EncryptedPacket where
  ct : Bytes
  nonce : Bytes
  mac : Bytes

/-- The capabilities `vrp.go` calls into: generators, hashes, packet encryption,
byte encodings, wide reduction and the Borromean ring-signature engine. -/
structure Caps (S P Sig : Type) where
  /-- The generator `G`. -/
  G : P
  /-- The generator `J`. -/
  J : P
  /-- The tagged hash `hash256(tag, parts...)`. -/
  hash256 : String → List Bytes → Bytes
  /-- The call `streamHash(tag, parts...)`; the last argument counts the 64-byte reads. -/
  streamHash : String → List Bytes → Nat → Bytes
  /-- The call `EncryptPacket(key, nonce, plaintext)`. -/
  EncryptPacket : Bytes → Option Bytes → Bytes → EncryptedPacket
  /-- The method `Scalar.Reduce` applied to a 64-byte block. -/
  Reduce : Bytes → S
  /-- The bytes `f[:]` of a scalar. -/
  scalarBytes : S → Bytes
  /-- The method `Bytes()` of a commitment. -/
  pairBytes : PointPair P → Bytes
  /-- The call `CreateBorromeanRingSignature(msg, B, PQ, b, j, ct)`. -/
  CreateBorromeanRingSignature :
    Bytes → List P → List (List (List P)) → List S → List Nat → List Block32 → Sig
  /-- The method `brs.Validate(msg, B, PQ)`. -/
  brsValidate : Sig → Bytes → List P → List (List (List P)) → Bool

/-- The Go struct `ValueRangeProof`. -/
structure ValueRangeProof (P Sig : Type) where
  nbits : Nat
  exp : Nat
  vmin : Nat
  digits : List (PointPair P)
  brs : Sig

/-- The Go constant `base`. -/
def base : Nat := 4

section Model

variable {S P Sig σ : Type} [Field S] [AddCommGroup P] [Module S P]

/-- Modelled from the spec: `powerOf10` is defined in package `ca` outside `vrp.go`;
the spec says the scaling uses the "modular inverse of powers of ten in the scalar
field", so `powerOf10 e` is `10 ^ e` in the scalar field, for any integer `e`. -/
def powerOf10 (S : Type) [Field S] (e : Int) : S := (10 : S) ^ e

/-! ## `vrpMsgHash` -/

/-- The Go function `vrpMsgHash`. -/
def vrpMsgHash (env : Caps S P Sig) (ac vc : PointPair P) (N exp vmin : Nat)
    (msg : Bytes) : Bytes :=
  env.hash256 "ChainCA.VRP"
    [env.pairBytes ac, env.pairBytes vc, uint64le N, uint64le exp, uint64le vmin, msg]

/-! ## `vrpCalcPQ` -/

/-- One pass of the inner loop `for i := 0; i < base; i++` of `vrpCalcPQ`, on the
state `(PQ[t], iBaseToTheTH, iBaseToTheTC)`. -/
def vrpRingStep (digit : PointPair P) (baseToTheTH baseToTheTC : P)
    (st : List (List P) × P × P) (i : Nat) : List (List P) × P × P :=
  let cand : List P :=
    if 0 < i then [digit.1 - st.2.1, digit.2 - st.2.2] else [digit.1, digit.2]
  let acc : P × P :=
    if i < base - 1 then (st.2.1 + baseToTheTH, st.2.2 + baseToTheTC) else st.2
  (st.1.set i cand, acc)

/-- The row `PQ[t]` that the inner loop of `vrpCalcPQ` builds from `getDigit(t)`. -/
def vrpRing (digit : PointPair P) (baseToTheTH baseToTheTC : P) : List (List P) :=
  ((List.range base).foldl (vrpRingStep digit baseToTheTH baseToTheTC)
    (List.replicate base [], 0, 0)).1

/-- The outer loop `for t := uint64(0); t < n; t++` of `vrpCalcPQ` with `k` passes
left to run; `getDigit` may change the state `σ` it closes over and may panic. -/
def vrpCalcPQLoop (ac : PointPair P)
    (getDigit : Nat → σ → Except String (PointPair P × σ)) :
    Nat → Nat → Nat → List (List (List P)) → σ →
      Except String (List (List (List P)) × σ)
  | 0, _, _, PQ, s => .ok (PQ, s)
  | k + 1, t, baseToTheT, PQ, s =>
    let baseToTheTScalar : S := (baseToTheT : S)
    let baseToTheTH : P := baseToTheTScalar • ac.1
    let baseToTheTC : P := baseToTheTScalar • ac.2
    match getDigit t s with
    | .error e => .error e
    | .ok (digit, s1) =>
      vrpCalcPQLoop ac getDigit k (t + 1) (u64 (baseToTheT * base))
        (PQ.set t (vrpRing digit baseToTheTH baseToTheTC)) s1

/-- The Go function `vrpCalcPQ`. -/
def vrpCalcPQ (ac : PointPair P) (n : Nat)
    (getDigit : Nat → σ → Except String (PointPair P × σ)) (s : σ) :
    Except String (List (List (List P)) × σ) :=
  vrpCalcPQLoop (S := S) ac getDigit n 0 1 (List.replicate n []) s

/-! ## `CreateValueRangeProof` -/

/-- The loop `for i := range pt` that copies `pt[i]` into `buf[32*i:32*(i+1)]`;
the first argument is what is left of `pt`, the second the index `i`. -/
def fillBuf : List Block32 → Nat → Bytes → Bytes
  | [], _, buf => buf
  | p :: ps, i, buf =>
    fillBuf ps (i + 1)
      (buf.take (32 * i) ++ goCopy ((buf.drop (32 * i)).take 32) p.val
        ++ buf.drop (32 * (i + 1)))

/-- Go's `copy(ct[i][:], src)` on a `[32]byte`. -/
def copy32 (dst : Block32) (src : Bytes) : Block32 :=
  ⟨goCopy dst.val src, by
    have h := dst.property
    simp only [goCopy, List.length_append, List.length_take, List.length_drop]
    omega⟩

/-- The loop `for i := uint64(0); i < 2*N-1; i++` that copies
`ep.ct[32*i:32*(i+1)]` into `ct[i]`, with `k` passes left to run. -/
def ctLoop (ep : EncryptedPacket) : Nat → Nat → List Block32 → Except String (List Block32)
  | 0, _, ct => .ok ct
  | k + 1, i, ct =>
    match sliceBytes ep.ct (32 * i) (32 * (i + 1)) with
    | .error e => .error e
    | .ok s => ctLoop ep k (i + 1) (ct.set i (copy32 (ct.getD i zero32) s))

/-- The last slot of `ct`: `copy(ct[2*N-1][:8], ep.nonce[:])` and then
`copy(ct[2*N-1][8:], ep.mac[:])`. -/
def lastSlot (slot : Block32) (ep : EncryptedPacket) : Block32 :=
  ⟨goCopy (slot.val.take 8) ep.nonce ++ goCopy (slot.val.drop 8) ep.mac, by
    have h := slot.property
    simp only [goCopy, List.length_append, List.length_take, List.length_drop]
    omega⟩

/-- Lines 38-43 of `CreateValueRangeProof`: the array `ct` built from the packet. -/
def packCt (N : Nat) (ep : EncryptedPacket) : Except String (List Block32) :=
  match ctLoop ep (u64sub (u64 (2 * N)) 1) 0 (List.replicate (u64 (2 * N)) zero32) with
  | .error e => .error e
  | .ok ct =>
    .ok (ct.set (u64sub (u64 (2 * N)) 1) (lastSlot (ct.getD (u64sub (u64 (2 * N)) 1) zero32) ep))

/-- The loop `for t := uint64(0); t < n-1; t++` that draws the blinding scalars,
with `k` passes left to run, on the state `(b, bsum)`; `read t` is the block the
`t`-th `hasher.Read` yields. -/
def blindLoop (env : Caps S P Sig) (read : Nat → Bytes) : Nat → Nat → List S → S → List S × S
  | 0, _, b, bsum => (b, bsum)
  | k + 1, t, b, bsum =>
    let bt := read t
    let b := b.set t (env.Reduce bt)
    blindLoop env read k (t + 1) b (bsum + b.getD t 0)

/-- The closure passed to `vrpCalcPQ` by `CreateValueRangeProof`; its state is the
pair of arrays `(DB, j)` it writes to.  An index outside `b`, `DB` or `j` panics. -/
def createDigit (env : Caps S P Sig) (AC : PointPair P) (value : Nat) (b : List S) (t : Nat)
    (st : List (PointPair P) × List Nat) :
    Except String (PointPair P × (List (PointPair P) × List Nat)) :=
  if t < b.length ∧ t < st.1.length ∧ t < st.2.length then
    let digitVal := value &&& u64shl 3 (u64 (2 * t))
    let d : S := (digitVal : S)
    let D : P := d • AC.1 + b.getD t 0 • env.G
    let B : P := d • AC.2
    let T : P := b.getD t 0 • env.J
    let B : P := B + T
    .ok ((D, B), (st.1.set t (D, B), st.2.set t (digitVal >>> u64 (2 * t))))
  else .error "index out of range"

/-- The local variables of a run of `CreateValueRangeProof` that did not panic. -/
structure CreateTrace (S P Sig : Type) where
  msghash : Bytes
  pek : Bytes
  buf : Bytes
  ep : EncryptedPacket
  ct : List Block32
  b : List S
  DB : List (PointPair P)
  j : List Nat
  PQ : List (List (List P))
  brs : Sig

/-- The body of `CreateValueRangeProof` up to the `return`, keeping every local. -/
def createTrace (env : Caps S P Sig) (AC VC : PointPair P) (N value : Nat)
    (pt : List Block32) (f : S) (idek : Bytes) (msg : Bytes) :
    Except String (CreateTrace S P Sig) :=
  if u64 pt.length ≠ u64sub (u64 (2 * N)) 1 then .error "calling error"
  else if ¬ (N = 8 ∨ N = 16 ∨ N = 32 ∨ N = 48 ∨ N = 64) then .error "calling error"
  else if u64shl 1 N ≤ value then .error "calling error"
  else
    let msghash := vrpMsgHash env AC VC N 0 0 msg
    let pek := env.hash256 "ChainCA.pek" [msghash, idek, env.scalarBytes f]
    let n := N / 2
    let buf := fillBuf pt 0 (List.replicate (u64 (32 * u64sub (u64 (2 * N)) 1)) 0)
    let ep := env.EncryptPacket pek none (buf.take (u64 (32 * u64sub (u64 (2 * N)) 1)))
    match packCt N ep with
    | .error e => .error e
    | .ok ct =>
      let hasher := env.streamHash "ChainCA.VRP.b" [msghash, env.scalarBytes f]
      let bl := blindLoop env hasher (u64sub n 1) 0 (List.replicate n 0) 0
      let b := bl.1.set (u64sub n 1) (f - bl.2)
      match vrpCalcPQ (S := S) AC n (createDigit env AC value b)
          (List.replicate n (0, 0), List.replicate n 0) with
      | .error e => .error e
      | .ok (PQ, (DB, j)) =>
        .ok ⟨msghash, pek, buf, ep, ct, b, DB, j, PQ,
          env.CreateBorromeanRingSignature msghash [env.G, env.J] PQ b j ct⟩

/-- The Go function `CreateValueRangeProof`; the key `vek` is not used by the body. -/
def CreateValueRangeProof (env : Caps S P Sig) (AC VC : PointPair P) (N value : Nat)
    (pt : List Block32) (f : S) (idek vek : Bytes) (msg : Bytes) :
    Except String (ValueRangeProof P Sig) :=
  match createTrace env AC VC N value pt f idek msg with
  | .error e => .error e
  | .ok tr => .ok ⟨N, 0, 0, tr.DB.take (u64sub (N / 2) 1), tr.brs⟩

/-! ## `ValueRangeProof.Validate` -/

/-- The loop `for i := uint64(0); i < vrp.exp; i++ { p10 *= 10 }`. -/
def validateP10 (exp : Nat) : Nat := (fun p => u64 (p * 10))^[exp] 1

/-- The range guards of `Validate` (lines 86-104): `true` when one of them fires
and `Validate` returns `false` at once. -/
def validateGuard (nbits exp vmin : Nat) : Bool :=
  if 10 < exp then true
  else if 2 ^ 63 ≤ vmin then true
  else if nbits % 1 ≠ 0 then true
  else if 64 < u64 (nbits + u64 (exp * 4)) then true
  else if 2 ^ 63 ≤ u64 (vmin + u64 (validateP10 exp * u64sub (u64shl 1 nbits) 1)) then true
  else false

/-- The pair `lastDB` of `Validate` (lines 109-121). -/
def validateLastDB (vrp : ValueRangeProof P Sig) (ac vc : PointPair P) (S : Type) [Field S]
    [Module S P] : PointPair P :=
  let vminScalar : S := (vrp.vmin : S)
  let lastDB : PointPair P := vminScalar • ac
  let lastDB : PointPair P := vc - lastDB
  let lastDB : PointPair P := powerOf10 S (-(vrp.exp : Int)) • lastDB
  let dbSum : PointPair P := vrp.digits.foldl (fun acc digit => acc + digit) 0
  lastDB - dbSum

/-- The closure passed to `vrpCalcPQ` by `Validate`; `vrp.digits[t]` panics when
`t` is not an index of `vrp.digits`. -/
def validateDigit (vrp : ValueRangeProof P Sig) (n : Nat) (lastDB : PointPair P) (t : Nat)
    (s : Unit) : Except String (PointPair P × Unit) :=
  if t = u64sub n 1 then .ok (lastDB, s)
  else
    match vrp.digits[t]? with
    | some d => .ok (d, s)
    | none => .error "index out of range"

/-- The Go method `ValueRangeProof.Validate`. -/
def Validate (env : Caps S P Sig) (vrp : ValueRangeProof P Sig) (ac vc : PointPair P)
    (msg : Bytes) : Except String Bool :=
  if validateGuard vrp.nbits vrp.exp vrp.vmin then .ok false
  else
    let n := vrp.nbits / 2
    let msghash := vrpMsgHash env ac vc vrp.nbits vrp.exp vrp.vmin msg
    let lastDB := validateLastDB vrp ac vc S
    match vrpCalcPQ (S := S) ac n (validateDigit vrp n lastDB) () with
    | .error e => .error e
    | .ok (PQ, _) => .ok (env.brsValidate vrp.brs msghash [env.G, env.J] PQ)

end Model

/-! ## Closed forms of the loops and contracts of the capabilities -/

section ClosedForms

variable {S P Sig σ : Type} [Field S] [AddCommGroup P] [Module S P]

/-- The value of `baseToTheT` after `m` more passes of the outer loop of
`vrpCalcPQ`, starting from `bt`. -/
def basePow (bt m : Nat) : Nat := (fun x => u64 (x * base))^[m] bt

/-- The 32 bytes `ct[32*i:32*(i+1)]` of a buffer. -/
def chunk32 (xs : Bytes) (i : Nat) : Bytes := (xs.drop (32 * i)).take 32

/-- The array `ct` in closed form: the 32-byte chunks of the packet ciphertext,
then the slot made of the nonce and the tag. -/
def ctSpec (N : Nat) (ep : EncryptedPacket) : List Block32 :=
  (List.range (2 * N - 1)).map (fun i => copy32 zero32 (chunk32 ep.ct i)) ++
    [lastSlot zero32 ep]

/-- The masked value `value & (0x03 << (2*t))` that the closure of
`CreateValueRangeProof` commits to at position `t`. -/
def digitVal (value t : Nat) : Nat := value &&& u64shl 3 (u64 (2 * t))

/-- The blinding scalars `b` in closed form: `n - 1` reduced stream blocks, then
`f` minus their sum. -/
def blindSpec (env : Caps S P Sig) (msghash : Bytes) (f : S) (n : Nat) : List S :=
  (List.range (n - 1)).map
      (fun t => env.Reduce (env.streamHash "ChainCA.VRP.b" [msghash, env.scalarBytes f] t)) ++
    [f - ((List.range (n - 1)).map
      (fun t => env.Reduce
        (env.streamHash "ChainCA.VRP.b" [msghash, env.scalarBytes f] t))).sum]

/-- The pair `DB[t]` the closure of `CreateValueRangeProof` computes. -/
def digitPair (env : Caps S P Sig) (AC : PointPair P) (value : Nat) (b : List S) (t : Nat) :
    PointPair P :=
  ((digitVal value t : S) • AC.1 + b.getD t 0 • env.G,
    (digitVal value t : S) • AC.2 + b.getD t 0 • env.J)

/-- The matrix `vrpCalcPQ` returns when `getDigit t` yields `d t`. -/
def pqSpec (S : Type) [Field S] [Module S P] (ac : PointPair P) (n : Nat)
    (d : Nat → PointPair P) : List (List (List P)) :=
  (List.range n).map (fun t =>
    vrpRing (d t) ((basePow 1 t : S) • ac.1) ((basePow 1 t : S) • ac.2))

/-- The packet `ep` that `CreateValueRangeProof` encrypts. -/
def createPacket (env : Caps S P Sig) (AC VC : PointPair P) (N : Nat)
    (pt : List Block32) (f : S) (idek : Bytes) (msg : Bytes) : EncryptedPacket :=
  env.EncryptPacket
    (env.hash256 "ChainCA.pek" [vrpMsgHash env AC VC N 0 0 msg, idek, env.scalarBytes f])
    none ((fillBuf pt 0 (List.replicate (32 * (2 * N - 1)) 0)).take (32 * (2 * N - 1)))

/-- The locals of `CreateValueRangeProof` in closed form, given the array `ct`. -/
def createSpec (env : Caps S P Sig) (AC VC : PointPair P) (N value : Nat)
    (pt : List Block32) (f : S) (idek : Bytes) (msg : Bytes) (ct : List Block32) :
    CreateTrace S P Sig :=
  let msghash := vrpMsgHash env AC VC N 0 0 msg
  let b := blindSpec env msghash f (N / 2)
  let PQ := pqSpec S AC (N / 2) (digitPair env AC value b)
  let j := (List.range (N / 2)).map (fun t => digitVal value t >>> u64 (2 * t))
  ⟨msghash, env.hash256 "ChainCA.pek" [msghash, idek, env.scalarBytes f],
    fillBuf pt 0 (List.replicate (32 * (2 * N - 1)) 0),
    createPacket env AC VC N pt f idek msg, ct, b,
    (List.range (N / 2)).map (digitPair env AC value b),
    j, PQ, env.CreateBorromeanRingSignature msghash [env.G, env.J] PQ b j ct⟩

/-- The contract of `EncryptPacket` that `CreateValueRangeProof` relies on: the
ciphertext is as long as the plaintext. -/
def EncryptKeepsLength (env : Caps S P Sig) : Prop :=
  ∀ (key : Bytes) (nonce : Option Bytes) (p : Bytes),
    (env.EncryptPacket key nonce p).ct.length = p.length

/-- The digit pair the closure of `Validate` returns at position `t` when it does
not panic. -/
def validatePair (vrp : ValueRangeProof P Sig) (ac vc : PointPair P) (S : Type) [Field S]
    [Module S P] (t : Nat) : PointPair P :=
  if t = vrp.nbits / 2 - 1 then validateLastDB vrp ac vc S else vrp.digits.getD t 0

/-- Completeness of the ring-signature engine (spec §4.5): a signature built from
true witnesses validates.  The witnesses are true when every row `t` of the matrix
has `base` candidates of one point per generator, the secret column `j[t]` is one
of them and the candidate there is the generator list scaled by `b[t]`. -/
def BrsComplete (env : Caps S P Sig) : Prop :=
  ∀ (msg : Bytes) (B : List P) (PQ : List (List (List P))) (b : List S) (j : List Nat)
    (ct : List Block32),
    b.length = PQ.length → j.length = PQ.length → ct.length = PQ.length * base →
    (∀ t, t < PQ.length →
      (PQ.getD t []).length = base ∧
      (∀ i, i < base → ((PQ.getD t []).getD i []).length = B.length) ∧
      j.getD t 0 < base ∧
      (PQ.getD t []).getD (j.getD t 0) [] = B.map (fun g => b.getD t 0 • g)) →
    env.brsValidate (env.CreateBorromeanRingSignature msg B PQ b j ct) msg B PQ = true

/-- The contract of `EncryptPacket` assumed for the packing layout: a ciphertext as
long as the plaintext, an 8-byte nonce and a 24-byte tag. -/
def PacketShape (env : Caps S P Sig) : Prop :=
  ∀ (key : Bytes) (nonce : Option Bytes) (p : Bytes),
    (env.EncryptPacket key nonce p).ct.length = p.length ∧
      (env.EncryptPacket key nonce p).nonce.length = 8 ∧
      (env.EncryptPacket key nonce p).mac.length = 24

end ClosedForms

/-! ## The commitment and value-encryption engines (spec §4.1 and §4.2)

Their code is not in `vrp.go`; the definitions of this part follow the spec. -/

/-- Modelled from the spec: the group, hash and authenticated-packet capabilities
(§2, items 1-3) that the commitment engine and the value-encryption engine call
into; none of this code is in `vrp.go`. -/
structure ValueCaps (S P : Type) where
  /-- The generator `G`. -/
  G : P
  /-- The generator `J`. -/
  J : P
  /-- The domain-separated hash-to-point that gives the component `H`. -/
  hashToPoint : List Bytes → P
  /-- The deterministic derivation of a blinding scalar from key material. -/
  deriveScalar : List Bytes → S
  /-- The packet key derived from the value-encryption key and the commitment. -/
  packetKey : Bytes → PointPair P → Bytes
  /-- Authenticated encryption of a buffer under a key. -/
  EncryptPacket : Bytes → Option Bytes → Bytes → EncryptedPacket
  /-- Authenticated decryption, `none` when the packet is rejected. -/
  DecryptPacket : Bytes → EncryptedPacket → Option Bytes
  /-- The fixed-size encoding of a scalar. -/
  scalarBytes : S → Bytes
  /-- Decoding of a scalar, `none` on a malformed encoding. -/
  scalarOfBytes : Bytes → Option S
  /-- The canonical encoding of a commitment. -/
  pairBytes : PointPair P → Bytes

/-- Modelled from the spec: `EncryptedValueSize` is declared outside `src/`; the spec
derives it "from plaintext size + nonce + tag lengths", here an 8-byte value and a
32-byte scalar, an 8-byte nonce and a 24-byte tag. -/
def EncryptedValueSize : Nat := 8 + 32 + 8 + 24

/-- The value of little-endian bytes, the inverse of `uint64le` on 8 bytes. -/
def uint64FromLE (bs : Bytes) : Nat := bs.foldr (fun b acc => b.val + 256 * acc) 0

/-- The single-bit flip `evef[i] ^= 1 << j` of `TestEncryptValue`, on a byte slice. -/
def flipBit (buf : Bytes) (i j : Nat) : Bytes :=
  buf.set i (Fin.ofNat ((buf.getD i 0).val ^^^ ((1 <<< j) % 256)))

section ValueModel

variable {S P : Type} [Field S] [AddCommGroup P] [Module S P]

/-- Modelled from the spec: `CreateAssetCommitment` lies outside `src/`.  Spec §4.1:
`H` is a hash-to-point of the asset id (and of the key, if present); with no key the
blinding component is the identity point and there is no blinding factor; with a key
a scalar `r` is derived from the key and the asset id and the blinding component is
`r·G`. -/
def CreateAssetCommitment (env : ValueCaps S P) (assetID : Block32) (aek : Option Bytes) :
    PointPair P × Option S :=
  match aek with
  | none => ((env.hashToPoint [assetID.val], 0), none)
  | some key =>
    let r := env.deriveScalar [key, assetID.val]
    ((env.hashToPoint [assetID.val, key], r • env.G), some r)

/-- The commitment `(value·H + f·G, value·C + f·J)` to `value` under the blinding
scalar `f` against the asset commitment `(H, C)`. -/
def valueCommit (env : ValueCaps S P) (value : Nat) (f : S) (ac : PointPair P) : PointPair P :=
  ((value : S) • ac.1 + f • env.G, (value : S) • ac.2 + f • env.J)

/-- Modelled from the spec: `CreateValueCommitment` lies outside `src/`.  Spec §4.1: the
blinding factor is derived from the key and the bytes of the asset commitment, and
the commitment is `value·H + f·G` (a point pair, so with `value·C + f·J` beside it). -/
def CreateValueCommitment (env : ValueCaps S P) (value : Nat) (ac : PointPair P)
    (vek : Bytes) : PointPair P × S :=
  let f := env.deriveScalar [vek, env.pairBytes ac]
  (valueCommit env value f ac, f)

/-- Modelled from the spec: `EncryptValue` lies outside `src/`.  Spec §4.2: it
serializes `(value, blindingFactor)` into a plaintext buffer, derives a packet key
from the value-encryption key and the commitment, and writes nonce, ciphertext and
tag into `outBuffer`, which must be exactly `EncryptedValueSize` bytes long.  The
result is the new content of `outBuffer`. -/
def EncryptValue (env : ValueCaps S P) (vc : PointPair P) (value : Nat) (f : S) (vek : Bytes)
    (outBuffer : Bytes) : Except String Bytes :=
  if outBuffer.length ≠ EncryptedValueSize then .error "calling error"
  else
    let plaintext := uint64le value ++ env.scalarBytes f
    let ep := env.EncryptPacket (env.packetKey vek vc) none plaintext
    .ok (goCopy outBuffer (ep.nonce ++ ep.ct ++ ep.mac))

/-- The packet that `DecryptValue` reads from a buffer of `EncryptedValueSize` bytes:
an 8-byte nonce, a 40-byte ciphertext and the tag. -/
def parsePacket (buf : Bytes) : EncryptedPacket :=
  ⟨(buf.drop 8).take 40, buf.take 8, buf.drop 48⟩

/-- Modelled from the spec: `DecryptValue` lies outside `src/`.  Spec §4.2: it attempts
authenticated decryption and on tag mismatch or malformed input returns a zero value,
a zero blinding factor and `ok = false`; on success it recomputes the commitment from
the decrypted `(value, blindingFactor)` and reports failure too when that is not the
supplied value commitment. -/
def DecryptValue [DecidableEq P] (env : ValueCaps S P) (buf : Bytes) (vc ac : PointPair P)
    (vek : Bytes) : Nat × S × Bool :=
  if buf.length ≠ EncryptedValueSize then (0, 0, false)
  else
    match env.DecryptPacket (env.packetKey vek vc) (parsePacket buf) with
    | none => (0, 0, false)
    | some plaintext =>
      if plaintext.length ≠ 40 then (0, 0, false)
      else
        match env.scalarOfBytes (plaintext.drop 8) with
        | none => (0, 0, false)
        | some f =>
          let value := uint64FromLE (plaintext.take 8)
          if valueCommit env value f ac = vc then (value, f, true) else (0, 0, false)

/-- The packet `EncryptValue` builds. -/
def valuePacket (env : ValueCaps S P) (vc : PointPair P) (value : Nat) (f : S) (vek : Bytes) :
    EncryptedPacket :=
  env.EncryptPacket (env.packetKey vek vc) none (uint64le value ++ env.scalarBytes f)

/-- The sizes the packet capability produces (spec §6): a ciphertext as long as the
plaintext, an 8-byte nonce and a 24-byte tag. -/
def ValuePacketShape (env : ValueCaps S P) : Prop :=
  ∀ (key : Bytes) (nonce : Option Bytes) (p : Bytes),
    (env.EncryptPacket key nonce p).ct.length = p.length ∧
      (env.EncryptPacket key nonce p).nonce.length = 8 ∧
      (env.EncryptPacket key nonce p).mac.length = 24

/-- The scalar encoding has 32 bytes (spec §6) and decodes to the scalar it encodes. -/
def ScalarCodec (env : ValueCaps S P) : Prop :=
  ∀ f : S, (env.scalarBytes f).length = 32 ∧ env.scalarOfBytes (env.scalarBytes f) = some f

/-- The packet capability decrypts, under the same key, what it encrypted. -/
def PacketRoundTrip (env : ValueCaps S P) : Prop :=
  ∀ (key : Bytes) (nonce : Option Bytes) (p : Bytes),
    env.DecryptPacket key (env.EncryptPacket key nonce p) = some p

/-- The packet `ep1` is `ep` with one bit of its nonce, ciphertext or tag flipped. -/
def OneBitOff (ep ep1 : EncryptedPacket) : Prop :=
  ∃ i j, j < 8 ∧
    ((i < ep.nonce.length ∧ ep1 = ⟨ep.ct, flipBit ep.nonce i j, ep.mac⟩) ∨
      (i < ep.ct.length ∧ ep1 = ⟨flipBit ep.ct i j, ep.nonce, ep.mac⟩) ∨
      (i < ep.mac.length ∧ ep1 = ⟨ep.ct, ep.nonce, flipBit ep.mac i j⟩))

/-- The packet capability fails closed on tampering (spec §2, item 3): a packet one
bit off a packet it produced is rejected under the same key. -/
def FailsClosed (env : ValueCaps S P) : Prop :=
  ∀ (key : Bytes) (nonce : Option Bytes) (p : Bytes) (ep1 : EncryptedPacket),
    OneBitOff (env.EncryptPacket key nonce p) ep1 → env.DecryptPacket key ep1 = none

end ValueModel

/-! ## A small concrete instance

Scalars are the prime field with 13 elements and points are pairs of scalars; the
ring-signature engine is the transparent one, whose signature is the list of
witnesses and whose validation opens every row at its secret column. -/

instance fact_prime_thirteen : Fact (Nat.Prime 13) := ⟨by norm_num⟩

/-- The scalars of the concrete instance. -/
abbrev DemoScalar := ZMod 13

/-- The points of the concrete instance. -/
abbrev DemoPoint := ZMod 13 × ZMod 13

/-- Validation of the transparent engine: every row opens at its secret column. -/
def openValidate (sig : List DemoScalar × List Nat) (B : List DemoPoint)
    (PQ : List (List (List DemoPoint))) : Bool :=
  (List.range PQ.length).all (fun t =>
    decide ((PQ.getD t []).getD (sig.2.getD t 0) [] = B.map (fun g => sig.1.getD t 0 • g)))

/-- The concrete capabilities. -/
def demoCaps : Caps DemoScalar DemoPoint (List DemoScalar × List Nat) where
  G := (1, 0)
  J := (0, 1)
  hash256 := fun _ parts => parts.flatten.take 32
  streamHash := fun _ _ t => List.replicate 64 (Fin.ofNat t)
  EncryptPacket := fun _ _ p => ⟨p, List.replicate 8 0, List.replicate 24 0⟩
  Reduce := fun bs => (((bs.map Fin.val).sum : Nat) : DemoScalar)
  scalarBytes := fun x => [Fin.ofNat x.val]
  pairBytes := fun pp => [Fin.ofNat pp.1.1.val, Fin.ofNat pp.1.2.val,
    Fin.ofNat pp.2.1.val, Fin.ofNat pp.2.2.val]
  CreateBorromeanRingSignature := fun _ _ _ b j _ => (b, j)
  brsValidate := fun sig _ B PQ => openValidate sig B PQ

/-- The asset commitment of the concrete instance. -/
def demoAC : PointPair DemoPoint := ((1, 1), (2, 5))

/-- The value commitment to `value` under the blinding scalar `f`. -/
def demoVC (value : Nat) (f : DemoScalar) : PointPair DemoPoint :=
  ((value : DemoScalar) • demoAC.1 + f • demoCaps.G,
    (value : DemoScalar) • demoAC.2 + f • demoCaps.J)

/-- The packet tag of the concrete instance: the sum of the bytes of nonce and
ciphertext modulo 256, then 23 zero bytes. -/
def demoTag (nonce ct : Bytes) : Bytes :=
  Fin.ofNat ((nonce ++ ct).map Fin.val).sum :: List.replicate 23 0

/-- The concrete capabilities of the commitment and value-encryption engines; the
packet is the plaintext in the clear under a checksum tag. -/
def demoValueCaps : ValueCaps DemoScalar DemoPoint where
  G := (1, 0)
  J := (0, 1)
  hashToPoint := fun parts => ((((parts.flatten.map Fin.val).sum + 1 : Nat) : DemoScalar), 1)
  deriveScalar := fun parts => (((parts.flatten.map Fin.val).sum : Nat) : DemoScalar)
  packetKey := fun vek _ => vek
  EncryptPacket := fun _ _ p => ⟨p, List.replicate 8 0, demoTag (List.replicate 8 0) p⟩
  DecryptPacket := fun _ ep => if ep.mac = demoTag ep.nonce ep.ct then some ep.ct else none
  scalarBytes := fun x => Fin.ofNat x.val :: List.replicate 31 0
  scalarOfBytes := fun bs =>
    if bs.length = 32 then some (((bs.headD 0).val : Nat) : DemoScalar) else none
  pairBytes := fun pp => [Fin.ofNat pp.1.1.val, Fin.ofNat pp.1.2.val,
    Fin.ofNat pp.2.1.val, Fin.ofNat pp.2.2.val]

/-- The key of `TestEncryptValue`: the bytes of "value encryption key". -/
def demoVek : Bytes := "value encryption key".toList.map (fun c => Fin.ofNat c.toNat)

/-- The asset commitment of `TestEncryptValue`: zero asset id, no blinding key. -/
def demoValueAC : PointPair DemoPoint := (CreateAssetCommitment demoValueCaps zero32 none).1

/-- The asset id of `TestAssetCommitment`: 32 bytes `0xaa`. -/
def demoAssetID : Block32 := ⟨List.replicate 32 0xaa, by simp⟩

/-! ## Lemmas -/

section Loops

variable {S P Sig σ : Type} [Field S] [AddCommGroup P] [Module S P]

/-! ## The loops in closed form -/

theorem vrpRing_eq (d : PointPair P) (bH bC : P) :
    vrpRing d bH bC =
      [[d.1, d.2], [d.1 - (0 + bH), d.2 - (0 + bC)],
        [d.1 - (0 + bH + bH), d.2 - (0 + bC + bC)],
        [d.1 - (0 + bH + bH + bH), d.2 - (0 + bC + bC + bC)]] := by
  simp [vrpRing, vrpRingStep, base, List.range_succ, List.replicate]

theorem vrpCalcPQLoop_ok (ac : PointPair P)
    (getDigit : Nat → σ → Except String (PointPair P × σ))
    (d : Nat → PointPair P) (upd : Nat → σ → σ) (inv : σ → Prop) :
    ∀ (k t bt : Nat) (done : List (List (List P))) (s : σ),
      done.length = t → inv s →
      (∀ i, t ≤ i → i < t + k → ∀ s, inv s →
        getDigit i s = .ok (d i, upd i s) ∧ inv (upd i s)) →
      vrpCalcPQLoop (S := S) ac getDigit k t bt (done ++ List.replicate k []) s =
        .ok (done ++ (List.range k).map (fun m =>
              vrpRing (d (t + m)) ((basePow bt m : S) • ac.1) ((basePow bt m : S) • ac.2)),
            (List.range k).foldl (fun s m => upd (t + m) s) s) := by
  intro k
  induction k with
  | zero => intro t bt done s _ _ _; simp [vrpCalcPQLoop]
  | succ k ih =>
    intro t bt done s hlen hs hd
    have h0 := (hd t (le_refl t) (by omega) s hs).1
    have h1 := (hd t (le_refl t) (by omega) s hs).2
    have hset : (done ++ List.replicate (k + 1) ([] : List (List P))).set t
          (vrpRing (d t) ((bt : S) • ac.1) ((bt : S) • ac.2)) =
        (done ++ [vrpRing (d t) ((bt : S) • ac.1) ((bt : S) • ac.2)]) ++
          List.replicate k [] := by
      rw [List.set_append_right _ _ (by omega)]
      simp [hlen, List.replicate_succ]
    rw [vrpCalcPQLoop]
    simp only [h0, hset]
    rw [ih (t + 1) (u64 (bt * base)) _ (upd t s) (by simp [hlen]) h1
      (fun i hi hi2 s => hd i (by omega) (by omega) s)]
    simp only [List.range_succ_eq_map, List.map_cons, List.map_map, List.foldl_cons,
      List.foldl_map, List.append_assoc, List.singleton_append, Function.comp_def,
      Nat.succ_eq_add_one, Nat.add_assoc, Nat.add_comm 1, basePow,
      Function.iterate_succ_apply, Function.iterate_zero, id, Nat.add_zero]

theorem basePow_one (m : Nat) (hm : m ≤ 32) : basePow 1 m = 4 ^ m % 2 ^ 64 := by
  induction m with
  | zero => simp [basePow]
  | succ m ih =>
    have h := ih (by omega)
    simp only [basePow, Function.iterate_succ_apply'] at h ⊢
    rw [h]
    simp only [u64, base, Nat.mod_mul_mod, pow_succ]

theorem foldl_set_range {α : Type} (g : Nat → α) (z : α) :
    ∀ (k t : Nat) (done : List α), done.length = t →
      (List.range k).foldl (fun l m => l.set (t + m) (g (t + m)))
          (done ++ List.replicate k z) =
        done ++ (List.range k).map (fun m => g (t + m)) := by
  intro k
  induction k with
  | zero => intro t done _; simp
  | succ k ih =>
    intro t done hlen
    have hset : (done ++ List.replicate (k + 1) z).set t (g t) =
        (done ++ [g t]) ++ List.replicate k z := by
      rw [List.set_append_right _ _ (by omega)]
      simp [hlen, List.replicate_succ]
    have h := ih (t + 1) (done ++ [g t]) (by simp [hlen])
    simp only [List.range_succ_eq_map, List.map_cons, List.map_map, List.foldl_cons,
      List.foldl_map, Function.comp_def, Nat.succ_eq_add_one, Nat.add_zero, hset]
    simp only [Nat.add_assoc, Nat.add_comm 1, List.append_assoc, List.singleton_append] at h ⊢
    exact h

theorem foldl_pair {α β : Type} (F : Nat → α → α) (H : Nat → β → β) (l : List Nat) :
    ∀ (a : α) (b : β),
      l.foldl (fun (s : α × β) m => (F m s.1, H m s.2)) (a, b) =
        (l.foldl (fun x m => F m x) a, l.foldl (fun y m => H m y) b) := by
  induction l with
  | nil => intro a b; rfl
  | cons m l ih => intro a b; simp only [List.foldl_cons, ih]

theorem blindLoop_eq (env : Caps S P Sig) (read : Nat → Bytes) (r : Nat) :
    ∀ (k t : Nat) (done : List S) (bsum : S), done.length = t →
      blindLoop env read k t (done ++ List.replicate (k + r) 0) bsum =
        (done ++ (List.range k).map (fun m => env.Reduce (read (t + m))) ++
            List.replicate r 0,
          bsum + ((List.range k).map (fun m => env.Reduce (read (t + m)))).sum) := by
  intro k
  induction k with
  | zero => intro t done bsum _; simp [blindLoop]
  | succ k ih =>
    intro t done bsum hlen
    have hset : (done ++ List.replicate (k + 1 + r) (0 : S)).set t (env.Reduce (read t)) =
        (done ++ [env.Reduce (read t)]) ++ List.replicate (k + r) 0 := by
      rw [List.set_append_right _ _ (by omega)]
      simp [hlen, show k + 1 + r = (k + r) + 1 by omega, List.replicate_succ]
    have hget : ((done ++ [env.Reduce (read t)]) ++ List.replicate (k + r) (0 : S)).getD t 0 =
        env.Reduce (read t) := by
      subst hlen
      rw [List.getD_eq_getElem?_getD, List.append_assoc,
        List.getElem?_append_right (le_refl _)]
      simp
    rw [blindLoop]
    simp only [hset, hget]
    rw [ih (t + 1) _ _ (by simp [hlen])]
    simp only [List.range_succ_eq_map, List.map_cons, List.map_map, List.sum_cons,
      Function.comp_def, Nat.succ_eq_add_one, Nat.add_zero, Nat.add_assoc, Nat.add_comm 1,
      List.append_assoc, List.singleton_append, add_assoc]

/-! ## Machine arithmetic facts -/

theorem u64_of_lt {x : Nat} (h : x < 2 ^ 64) : u64 x = x := Nat.mod_eq_of_lt h

theorem u64sub_one {a : Nat} (h1 : 1 ≤ a) (h2 : a < 2 ^ 64) : u64sub a 1 = a - 1 := by
  unfold u64sub
  rw [Nat.mod_eq_of_lt h2, Nat.mod_eq_of_lt (by norm_num : 1 < 2 ^ 64), if_pos h1]

theorem u64shl_of_lt {a s : Nat} (hs : s < 64) : u64shl a s = a * 2 ^ s % 2 ^ 64 := by
  unfold u64shl
  rw [if_neg (by omega), Nat.shiftLeft_eq]

/-! ## The ciphertext array in closed form -/

theorem ctLoop_eq (ep : EncryptedPacket) (r : Nat) :
    ∀ (k t : Nat) (done : List Block32), done.length = t → 32 * (t + k) ≤ ep.ct.length →
      ctLoop ep k t (done ++ List.replicate (k + r) zero32) =
        .ok (done ++ (List.range k).map (fun m => copy32 zero32 (chunk32 ep.ct (t + m))) ++
          List.replicate r zero32) := by
  intro k
  induction k with
  | zero => intro t done _ _; simp [ctLoop]
  | succ k ih =>
    intro t done hlen hct
    have hslice : sliceBytes ep.ct (32 * t) (32 * (t + 1)) = .ok (chunk32 ep.ct t) := by
      unfold sliceBytes chunk32
      rw [if_pos (by omega), show 32 * (t + 1) - 32 * t = 32 by omega]
    have hget : (done ++ List.replicate (k + 1 + r) zero32).getD t zero32 = zero32 := by
      subst hlen
      rw [List.getD_eq_getElem?_getD, List.getElem?_append_right (le_refl _)]
      simp [show k + 1 + r = (k + r) + 1 by omega, List.replicate_succ]
    have hset : (done ++ List.replicate (k + 1 + r) zero32).set t
          (copy32 zero32 (chunk32 ep.ct t)) =
        (done ++ [copy32 zero32 (chunk32 ep.ct t)]) ++ List.replicate (k + r) zero32 := by
      rw [List.set_append_right _ _ (by omega)]
      simp [hlen, show k + 1 + r = (k + r) + 1 by omega, List.replicate_succ]
    rw [ctLoop]
    simp only [hslice, hget, hset]
    rw [ih (t + 1) _ (by simp [hlen]) (by omega)]
    simp only [List.range_succ_eq_map, List.map_cons, List.map_map,
      Function.comp_def, Nat.succ_eq_add_one, Nat.add_zero, Nat.add_assoc, Nat.add_comm 1,
      List.append_assoc, List.singleton_append]

theorem packCt_eq (N : Nat) (ep : EncryptedPacket) (h1 : 1 ≤ N) (h2 : N < 2 ^ 63)
    (hct : 32 * (2 * N - 1) ≤ ep.ct.length) : packCt N ep = .ok (ctSpec N ep) := by
  have e1 : u64 (2 * N) = 2 * N := u64_of_lt (by omega)
  have e2 : u64sub (2 * N) 1 = 2 * N - 1 := u64sub_one (by omega) (by omega)
  have e3 : List.replicate (2 * N) zero32 =
      ([] : List Block32) ++ List.replicate ((2 * N - 1) + 1) zero32 := by
    rw [List.nil_append, show 2 * N - 1 + 1 = 2 * N by omega]
  unfold packCt
  rw [e1, e2, e3, ctLoop_eq ep 1 (2 * N - 1) 0 [] rfl (by simpa using hct)]
  simp only [List.nil_append, Nat.zero_add, ctSpec]
  have hlen : ((List.range (2 * N - 1)).map
      (fun i => copy32 zero32 (chunk32 ep.ct i))).length = 2 * N - 1 := by simp
  rw [List.getD_eq_getElem?_getD, List.getElem?_append_right (by omega),
    List.set_append_right _ _ (by omega)]
  simp [hlen]

/-! ## `CreateValueRangeProof` in closed form -/

theorem fillBuf_length : ∀ (ps : List Block32) (i : Nat) (buf : Bytes),
    32 * (i + ps.length) ≤ buf.length → (fillBuf ps i buf).length = buf.length := by
  intro ps
  induction ps with
  | nil => intro i buf _; rfl
  | cons p ps ih =>
    intro i buf h
    have hp := p.property
    simp only [List.length_cons] at h
    have hl : (buf.take (32 * i) ++ goCopy ((buf.drop (32 * i)).take 32) p.val
        ++ buf.drop (32 * (i + 1))).length = buf.length := by
      simp only [goCopy, List.length_append, List.length_take, List.length_drop]
      omega
    rw [fillBuf, ih (i + 1) _ (by rw [hl]; omega), hl]

theorem vrpCalcPQ_ok (ac : PointPair P) (n : Nat)
    (getDigit : Nat → σ → Except String (PointPair P × σ))
    (d : Nat → PointPair P) (upd : Nat → σ → σ) (inv : σ → Prop) (s : σ) (hs : inv s)
    (hd : ∀ i, i < n → ∀ s, inv s → getDigit i s = .ok (d i, upd i s) ∧ inv (upd i s)) :
    vrpCalcPQ (S := S) ac n getDigit s =
      .ok (pqSpec S ac n d, (List.range n).foldl (fun s m => upd m s) s) := by
  have h := vrpCalcPQLoop_ok (S := S) ac getDigit d upd inv n 0 1 [] s rfl hs
    (fun i _ hi s hs => hd i (by omega) s hs)
  simp only [List.nil_append, Nat.zero_add] at h
  rw [vrpCalcPQ, h, pqSpec]

theorem foldl_set_range_zero {α : Type} (g : Nat → α) (z : α) (n : Nat) :
    (List.range n).foldl (fun l m => l.set m (g m)) (List.replicate n z) =
      (List.range n).map g := by
  have h := foldl_set_range g z n 0 [] rfl
  simpa only [Nat.zero_add, List.nil_append] using h

theorem blindSpec_length (env : Caps S P Sig) (msghash : Bytes) (f : S) (n : Nat)
    (hn : 1 ≤ n) : (blindSpec env msghash f n).length = n := by
  simp only [blindSpec, List.length_append, List.length_map, List.length_range,
    List.length_singleton]
  omega

theorem blind_eq (env : Caps S P Sig) (msghash : Bytes) (f : S) (n : Nat) (hn : 1 ≤ n) :
    (blindLoop env (env.streamHash "ChainCA.VRP.b" [msghash, env.scalarBytes f]) (n - 1) 0
        (List.replicate n 0) 0).1.set (n - 1)
      (f - (blindLoop env (env.streamHash "ChainCA.VRP.b" [msghash, env.scalarBytes f])
        (n - 1) 0 (List.replicate n 0) 0).2) = blindSpec env msghash f n := by
  have e : List.replicate n (0 : S) = ([] : List S) ++ List.replicate ((n - 1) + 1) 0 := by
    rw [List.nil_append, show n - 1 + 1 = n by omega]
  rw [e, blindLoop_eq env _ 1 (n - 1) 0 [] 0 rfl]
  simp only [List.nil_append, Nat.zero_add, zero_add, blindSpec]
  rw [List.set_append_right _ _ (by simp)]
  simp

theorem createDigit_run (env : Caps S P Sig) (AC : PointPair P) (value : Nat) (b : List S)
    (n : Nat) (hb : b.length = n) :
    vrpCalcPQ (S := S) AC n (createDigit env AC value b)
        (List.replicate n (0, 0), List.replicate n 0) =
      .ok (pqSpec S AC n (digitPair env AC value b),
        ((List.range n).map (digitPair env AC value b),
          (List.range n).map (fun t => digitVal value t >>> u64 (2 * t)))) := by
  rw [vrpCalcPQ_ok (S := S) AC n (createDigit env AC value b) (digitPair env AC value b)
    (fun t st => (st.1.set t (digitPair env AC value b t),
      st.2.set t (digitVal value t >>> u64 (2 * t))))
    (fun st => st.1.length = n ∧ st.2.length = n) _ (by simp)]
  · rw [foldl_pair (fun t (l : List (PointPair P)) => l.set t (digitPair env AC value b t))
      (fun t (l : List Nat) => l.set t (digitVal value t >>> u64 (2 * t))),
      foldl_set_range_zero, foldl_set_range_zero]
  · intro i hi st hst
    refine ⟨?_, by simpa using hst⟩
    unfold createDigit
    rw [if_pos ⟨by omega, by omega, by omega⟩]
    rfl

/-- Once the three argument checks pass, `CreateValueRangeProof` can only panic
while it slices the packet ciphertext. -/
theorem createTrace_run (env : Caps S P Sig) (AC VC : PointPair P) (N value : Nat)
    (pt : List Block32) (f : S) (idek : Bytes) (msg : Bytes)
    (hN : N = 8 ∨ N = 16 ∨ N = 32 ∨ N = 48) (hpt : u64 pt.length = 2 * N - 1)
    (hv : value < 2 ^ N) :
    createTrace env AC VC N value pt f idek msg =
      match packCt N (createPacket env AC VC N pt f idek msg) with
      | .error e => .error e
      | .ok ct => .ok (createSpec env AC VC N value pt f idek msg ct) := by
  have hlo : 8 ≤ N := by omega
  have hhi : N ≤ 48 := by omega
  have e1 : u64 (2 * N) = 2 * N := u64_of_lt (by omega)
  have e2 : u64sub (2 * N) 1 = 2 * N - 1 := u64sub_one (by omega) (by omega)
  have e4 : u64shl 1 N = 2 ^ N := by
    rw [u64shl_of_lt (by omega), one_mul]
    exact Nat.mod_eq_of_lt (Nat.pow_lt_pow_right (by norm_num) (by omega))
  have e5 : u64sub (N / 2) 1 = N / 2 - 1 := u64sub_one (by omega) (by omega)
  have e6 : u64 (32 * (2 * N - 1)) = 32 * (2 * N - 1) := u64_of_lt (by omega)
  have hN64 : N = 8 ∨ N = 16 ∨ N = 32 ∨ N = 48 ∨ N = 64 := by omega
  have hrun := createDigit_run env AC value
    (blindSpec env (vrpMsgHash env AC VC N 0 0 msg) f (N / 2)) (N / 2)
    (blindSpec_length env _ f _ (by omega))
  unfold createTrace
  simp only [e1, e2, hpt, e4, e5, e6, ne_eq, not_true_eq_false, if_false, hN64,
    Nat.not_le.mpr hv, blind_eq env _ f (N / 2) (by omega), hrun, createSpec, createPacket]

/-- The three argument checks of `CreateValueRangeProof` hold whenever it returns. -/
theorem createTrace_inv (env : Caps S P Sig) (AC VC : PointPair P) (N value : Nat)
    (pt : List Block32) (f : S) (idek : Bytes) (msg : Bytes) (tr : CreateTrace S P Sig)
    (h : createTrace env AC VC N value pt f idek msg = .ok tr) :
    (N = 8 ∨ N = 16 ∨ N = 32 ∨ N = 48) ∧ u64 pt.length = 2 * N - 1 ∧ value < 2 ^ N := by
  unfold createTrace at h
  split at h
  · exact absurd h (by simp)
  · rename_i h1
    split at h
    · exact absurd h (by simp)
    · rename_i h2
      split at h
      · exact absurd h (by simp)
      · rename_i h3
        have h1 : u64 pt.length = u64sub (u64 (2 * N)) 1 := not_not.mp h1
        have h2 : N = 8 ∨ N = 16 ∨ N = 32 ∨ N = 48 ∨ N = 64 := not_not.mp h2
        have h3 : value < u64shl 1 N := Nat.not_le.mp h3
        have hne : N ≠ 64 := by
          intro h64
          rw [h64] at h3
          have h0 : u64shl 1 64 = 0 := by decide
          omega
        have hN : N = 8 ∨ N = 16 ∨ N = 32 ∨ N = 48 := by omega
        have e4 : u64shl 1 N = 2 ^ N := by
          rw [u64shl_of_lt (by omega), one_mul]
          exact Nat.mod_eq_of_lt (Nat.pow_lt_pow_right (by norm_num) (by omega))
        refine ⟨hN, ?_, by rw [← e4]; exact h3⟩
        rw [h1, u64_of_lt (by omega), u64sub_one (by omega) (by omega)]

theorem createPacket_length (env : Caps S P Sig) (AC VC : PointPair P) (N : Nat)
    (pt : List Block32) (f : S) (idek : Bytes) (msg : Bytes)
    (hpt : pt.length = 2 * N - 1) (henc : EncryptKeepsLength env) :
    (createPacket env AC VC N pt f idek msg).ct.length = 32 * (2 * N - 1) := by
  unfold createPacket
  rw [henc, List.length_take, fillBuf_length _ _ _ (by simp [hpt])]
  simp

theorem createTrace_eq (env : Caps S P Sig) (AC VC : PointPair P) (N value : Nat)
    (pt : List Block32) (f : S) (idek : Bytes) (msg : Bytes)
    (hN : N = 8 ∨ N = 16 ∨ N = 32 ∨ N = 48) (hpt : pt.length = 2 * N - 1)
    (hv : value < 2 ^ N) (henc : EncryptKeepsLength env) :
    createTrace env AC VC N value pt f idek msg =
      .ok (createSpec env AC VC N value pt f idek msg
        (ctSpec N (createPacket env AC VC N pt f idek msg))) := by
  rw [createTrace_run env AC VC N value pt f idek msg hN
      (by rw [hpt]; exact u64_of_lt (by omega)) hv,
    packCt_eq N _ (by omega) (by omega)
      (le_of_eq (createPacket_length env AC VC N pt f idek msg hpt henc).symm)]

/-! ## Base-4 digits -/

theorem and_shl (x m k : Nat) : x &&& (m <<< k) = ((x >>> k) &&& m) <<< k := by
  apply Nat.eq_of_testBit_eq
  intro i
  simp only [Nat.testBit_and, Nat.testBit_shiftLeft, Nat.testBit_shiftRight]
  by_cases h : k ≤ i
  · simp [h, Nat.add_sub_cancel' h, Bool.and_comm]
  · simp [h]

theorem digitVal_eq (value t : Nat) (ht : t < 32) :
    digitVal value t = (value / 4 ^ t % 4) * 4 ^ t := by
  have h4 : (2 : Nat) ^ (2 * t) = 4 ^ t := by rw [pow_mul]; norm_num
  have hle : (4 : Nat) ^ t ≤ 4 ^ 31 := Nat.pow_le_pow_right (by norm_num) (by omega)
  have hlt : 3 * 4 ^ t < 2 ^ 64 := by
    have : (4 : Nat) ^ 31 * 3 < 2 ^ 64 := by norm_num
    omega
  have h3 : ∀ y : Nat, y &&& 3 = y % 4 := fun y => by
    simpa using Nat.and_pow_two_sub_one_eq_mod y 2
  unfold digitVal
  rw [u64_of_lt (by omega), u64shl_of_lt (by omega), h4, Nat.mod_eq_of_lt hlt,
    show 3 * 4 ^ t = 3 <<< (2 * t) by rw [Nat.shiftLeft_eq, h4], and_shl, h3,
    Nat.shiftRight_eq_div_pow, Nat.shiftLeft_eq, h4]

theorem digitIdx_eq (value t : Nat) (ht : t < 32) :
    digitVal value t >>> u64 (2 * t) = value / 4 ^ t % 4 := by
  have h4 : (2 : Nat) ^ (2 * t) = 4 ^ t := by rw [pow_mul]; norm_num
  rw [digitVal_eq value t ht, u64_of_lt (by omega), Nat.shiftRight_eq_div_pow, h4,
    Nat.mul_div_cancel _ (by positivity)]

theorem digit_sum (x : Nat) (n : Nat) :
    ((List.range n).map (fun t => (x / 4 ^ t % 4) * 4 ^ t)).sum = x % 4 ^ n := by
  induction n with
  | zero => simp [Nat.mod_one]
  | succ n ih =>
    rw [List.range_succ, List.map_append, List.sum_append, ih, Nat.mod_pow_succ]
    simp [Nat.mul_comm]

theorem digitVal_sum (value n : Nat) (hn : n ≤ 32) (hv : value < 4 ^ n) :
    ((List.range n).map (digitVal value)).sum = value := by
  have h : (List.range n).map (digitVal value) =
      (List.range n).map (fun t => (value / 4 ^ t % 4) * 4 ^ t) := by
    apply List.map_congr_left
    intro t ht
    exact digitVal_eq value t (by have := List.mem_range.mp ht; omega)
  rw [h, digit_sum, Nat.mod_eq_of_lt hv]

/-! ## Digit commitments -/

theorem blindSpec_sum (env : Caps S P Sig) (msghash : Bytes) (f : S) (n : Nat) :
    (blindSpec env msghash f n).sum = f := by
  simp [blindSpec, List.sum_append]

theorem getD_range (b : List S) : (List.range b.length).map (fun t => b.getD t 0) = b := by
  apply List.ext_getElem?
  intro i
  by_cases h : i < b.length
  · simp [List.getElem?_range h, List.getElem?_eq_getElem h]
  · have h1 : b.length ≤ i := by omega
    simp [List.getElem?_eq_none h1]
    exact h1

theorem digitPair_sum (env : Caps S P Sig) (AC : PointPair P) (value : Nat) (b : List S)
    (l : List Nat) :
    (l.map (digitPair env AC value b)).sum =
      ((((l.map (digitVal value)).sum : Nat) : S) • AC.1 +
          (l.map (fun t => b.getD t 0)).sum • env.G,
        (((l.map (digitVal value)).sum : Nat) : S) • AC.2 +
          (l.map (fun t => b.getD t 0)).sum • env.J) := by
  induction l with
  | nil => simp
  | cons t l ih =>
    simp only [List.map_cons, List.sum_cons, ih, digitPair, Prod.mk_add_mk, Nat.cast_add,
      add_smul, Prod.mk.injEq]
    constructor <;> abel

/-- The digit pairs of a valid call add up to the value commitment. -/
theorem digitPair_total (env : Caps S P Sig) (AC : PointPair P) (value n : Nat)
    (msghash : Bytes) (f : S) (h1 : 1 ≤ n) (hn : n ≤ 32) (hv : value < 4 ^ n) :
    ((List.range n).map (digitPair env AC value (blindSpec env msghash f n))).sum =
      ((value : S) • AC.1 + f • env.G, (value : S) • AC.2 + f • env.J) := by
  have hb := getD_range (blindSpec env msghash f n)
  rw [blindSpec_length env msghash f n h1] at hb
  rw [digitPair_sum, digitVal_sum value n hn hv, hb, blindSpec_sum]

theorem foldl_add_eq_sum (l : List (PointPair P)) :
    l.foldl (fun acc digit => acc + digit) 0 = l.sum := by
  rw [List.sum_eq_foldl]

/-! ## `Validate` in closed form -/

theorem validate_run (env : Caps S P Sig) (vrp : ValueRangeProof P Sig) (ac vc : PointPair P)
    (msg : Bytes) (hbits : vrp.nbits < 2 ^ 64)
    (hguard : validateGuard vrp.nbits vrp.exp vrp.vmin = false)
    (hlen : vrp.nbits / 2 - 1 ≤ vrp.digits.length) :
    Validate env vrp ac vc msg =
      .ok (env.brsValidate vrp.brs (vrpMsgHash env ac vc vrp.nbits vrp.exp vrp.vmin msg)
        [env.G, env.J] (pqSpec S ac (vrp.nbits / 2) (validatePair vrp ac vc S))) := by
  unfold Validate
  rw [hguard]
  simp only [Bool.false_eq_true, if_false]
  rw [vrpCalcPQ_ok (S := S) ac (vrp.nbits / 2) _ (validatePair vrp ac vc S) (fun _ s => s)
    (fun _ => True) () trivial]
  intro i hi s _
  refine ⟨?_, trivial⟩
  have hn : u64sub (vrp.nbits / 2) 1 = vrp.nbits / 2 - 1 := u64sub_one (by omega) (by omega)
  unfold validateDigit validatePair
  rw [hn]
  by_cases h : i = vrp.nbits / 2 - 1
  · rw [if_pos h, if_pos h]
  · rw [if_neg h, if_neg h]
    have hlt : i < vrp.digits.length := by omega
    rw [List.getElem?_eq_getElem hlt, List.getD_eq_getElem?_getD,
      List.getElem?_eq_getElem hlt]
    rfl

/-- The candidate of row `t` at the column of the true digit is a commitment to
zero under the blinding scalar of the row. -/
theorem ring_opening (env : Caps S P Sig) (AC : PointPair P) (value : Nat) (b : List S)
    (t : Nat) (ht : t < 32) :
    (vrpRing (digitPair env AC value b t) ((basePow 1 t : S) • AC.1)
        ((basePow 1 t : S) • AC.2)).getD (digitVal value t >>> u64 (2 * t)) [] =
      [env.G, env.J].map (fun g => b.getD t 0 • g) := by
  have hpow : basePow 1 t = 4 ^ t := by
    rw [basePow_one t (by omega)]
    apply Nat.mod_eq_of_lt
    calc (4 : Nat) ^ t ≤ 4 ^ 31 := Nat.pow_le_pow_right (by norm_num) (by omega)
      _ < 2 ^ 64 := by norm_num
  have hq : value / 4 ^ t % 4 < 4 := Nat.mod_lt _ (by norm_num)
  rw [digitIdx_eq value t ht, vrpRing_eq, hpow]
  simp only [digitPair, digitVal_eq value t ht]
  generalize value / 4 ^ t % 4 = q at hq
  interval_cases q
  · simp
  · simp only [List.getD_eq_getElem?_getD, List.map_cons, List.map_nil]
    simp
  · simp only [List.getD_eq_getElem?_getD, List.map_cons, List.map_nil]
    simp only [List.getElem?_cons_succ, List.getElem?_cons_zero, Option.getD_some,
      List.cons.injEq, and_true, Nat.cast_mul, Nat.cast_ofNat, Nat.cast_pow]
    constructor <;> module
  · simp only [List.getD_eq_getElem?_getD, List.map_cons, List.map_nil]
    simp only [List.getElem?_cons_succ, List.getElem?_cons_zero, Option.getD_some,
      List.cons.injEq, and_true, Nat.cast_mul, Nat.cast_ofNat, Nat.cast_pow]
    constructor <;> module

/-! ## The matrix in closed form and the last digit pair -/

theorem pqSpec_length (ac : PointPair P) (n : Nat) (d : Nat → PointPair P) :
    (pqSpec S ac n d).length = n := by
  simp [pqSpec]

theorem pqSpec_getD (ac : PointPair P) (n : Nat) (d : Nat → PointPair P) (t : Nat)
    (ht : t < n) :
    (pqSpec S ac n d).getD t [] =
      vrpRing (d t) ((basePow 1 t : S) • ac.1) ((basePow 1 t : S) • ac.2) := by
  simp [pqSpec, List.getD_eq_getElem?_getD, List.getElem?_range ht]

theorem pqSpec_congr (ac : PointPair P) (n : Nat) (d e : Nat → PointPair P)
    (h : ∀ t, t < n → d t = e t) : pqSpec S ac n d = pqSpec S ac n e := by
  unfold pqSpec
  apply List.map_congr_left
  intro t ht
  rw [h t (List.mem_range.mp ht)]

theorem vrpRing_shape (d : PointPair P) (bH bC : P) :
    (vrpRing d bH bC).length = base ∧
      ∀ i, i < base → ((vrpRing d bH bC).getD i []).length = 2 := by
  rw [vrpRing_eq]
  refine ⟨rfl, ?_⟩
  intro i hi
  have hi4 : i < 4 := hi
  interval_cases i <;> rfl

/-- The pair `lastDB` that `Validate` rebuilds from the `n - 1` retained pairs of a
valid call is the pair of the last digit. -/
theorem lastDB_eq (env : Caps S P Sig) (AC : PointPair P) (value n N : Nat)
    (msghash : Bytes) (f : S) (brs : Sig) (h1 : 1 ≤ n) (hn : n ≤ 32) (hv : value < 4 ^ n) :
    validateLastDB
        (⟨N, 0, 0, ((List.range n).map
          (digitPair env AC value (blindSpec env msghash f n))).take (n - 1), brs⟩ :
          ValueRangeProof P Sig)
        AC ((value : S) • AC.1 + f • env.G, (value : S) • AC.2 + f • env.J) S =
      digitPair env AC value (blindSpec env msghash f n) (n - 1) := by
  have tot := digitPair_total env AC value n msghash f h1 hn hv
  rw [show n = (n - 1) + 1 by omega, List.sum_range_succ] at tot
  rw [show n - 1 + 1 = n by omega] at tot
  unfold validateLastDB
  simp only [Nat.cast_zero, zero_smul, sub_zero, powerOf10, neg_zero, zpow_zero, one_smul,
    foldl_add_eq_sum]
  rw [← List.map_take, List.take_range, min_eq_left (by omega), ← tot]
  abel

theorem guard_of_created (N : Nat) (hN : N = 8 ∨ N = 16 ∨ N = 32 ∨ N = 48) :
    validateGuard N 0 0 = false := by
  rcases hN with rfl | rfl | rfl | rfl <;> decide

/-! ## What a returned proof looks like, and what `Validate` does with it -/

/-- A run of `CreateValueRangeProof` that returns went through the three argument
checks and computed the closed forms of `createSpec`. -/
theorem createTrace_spec (env : Caps S P Sig) (AC VC : PointPair P) (N value : Nat)
    (pt : List Block32) (f : S) (idek : Bytes) (msg : Bytes) (tr : CreateTrace S P Sig)
    (h : createTrace env AC VC N value pt f idek msg = .ok tr) :
    (N = 8 ∨ N = 16 ∨ N = 32 ∨ N = 48) ∧ value < 2 ^ N ∧
      ∃ ct, packCt N (createPacket env AC VC N pt f idek msg) = .ok ct ∧
        tr = createSpec env AC VC N value pt f idek msg ct := by
  obtain ⟨hN, hpt, hv⟩ := createTrace_inv env AC VC N value pt f idek msg tr h
  refine ⟨hN, hv, ?_⟩
  rw [createTrace_run env AC VC N value pt f idek msg hN hpt hv] at h
  cases hp : packCt N (createPacket env AC VC N pt f idek msg) with
  | error e => rw [hp] at h; exact absurd h (by simp)
  | ok ct =>
    rw [hp] at h
    exact ⟨ct, rfl, (Except.ok.inj h).symm⟩

theorem four_pow_half (N : Nat) (hN : N = 8 ∨ N = 16 ∨ N = 32 ∨ N = 48) :
    4 ^ (N / 2) = 2 ^ N := by
  rcases hN with rfl | rfl | rfl | rfl <;> norm_num

/-- On the proof of a valid call, checked against the commitments it was made for,
`Validate` rebuilds the matrix of `CreateValueRangeProof` and returns the verdict of
the engine on it. -/
theorem validate_created (env : Caps S P Sig) (AC : PointPair P) (N value : Nat) (f : S)
    (msg : Bytes) (brs : Sig) (hN : N = 8 ∨ N = 16 ∨ N = 32 ∨ N = 48) (hv : value < 2 ^ N) :
    Validate env
        (⟨N, 0, 0, ((List.range (N / 2)).map (digitPair env AC value
          (blindSpec env (vrpMsgHash env AC
            ((value : S) • AC.1 + f • env.G, (value : S) • AC.2 + f • env.J) N 0 0 msg)
            f (N / 2)))).take (N / 2 - 1), brs⟩ : ValueRangeProof P Sig)
        AC ((value : S) • AC.1 + f • env.G, (value : S) • AC.2 + f • env.J) msg =
      .ok (env.brsValidate brs
        (vrpMsgHash env AC
          ((value : S) • AC.1 + f • env.G, (value : S) • AC.2 + f • env.J) N 0 0 msg)
        [env.G, env.J]
        (pqSpec S AC (N / 2) (digitPair env AC value
          (blindSpec env (vrpMsgHash env AC
            ((value : S) • AC.1 + f • env.G, (value : S) • AC.2 + f • env.J) N 0 0 msg)
            f (N / 2))))) := by
  have hlo : 8 ≤ N := by omega
  have hhi : N ≤ 48 := by omega
  have hv4 : value < 4 ^ (N / 2) := by rw [four_pow_half N hN]; exact hv
  rw [validate_run env _ AC _ msg (by show N < 2 ^ 64; omega) (guard_of_created N hN)
    (by simp)]
  congr 2
  apply pqSpec_congr
  intro t ht
  unfold validatePair
  by_cases h : t = N / 2 - 1
  · rw [if_pos h, h]
    exact lastDB_eq env AC value (N / 2) N _ f brs (by omega) (by omega) hv4
  · rw [if_neg h]
    have ht1 : t < N / 2 - 1 := by
      have : t < N / 2 := ht
      omega
    simp only [List.getD_eq_getElem?_getD, ← List.map_take, List.take_range,
      min_eq_left (Nat.sub_le _ _), List.getElem?_map, List.getElem?_range ht1,
      Option.map_some', Option.getD_some]

/-! ## Further facts about a returned proof -/

theorem digitVal_mask (value t : Nat) (ht : t < 32) :
    digitVal value t = value &&& (3 <<< (2 * t)) := by
  have hle : (2 : Nat) ^ (2 * t) ≤ 2 ^ 62 := Nat.pow_le_pow_right (by norm_num) (by omega)
  have hlt : 3 * 2 ^ (2 * t) < 2 ^ 64 := by
    have : (2 : Nat) ^ 62 * 3 < 2 ^ 64 := by norm_num
    omega
  unfold digitVal
  rw [u64_of_lt (by omega), u64shl_of_lt (by omega), Nat.mod_eq_of_lt hlt, Nat.shiftLeft_eq]

theorem mask_eq (value t : Nat) :
    value &&& (3 <<< (2 * t)) = ((value >>> (2 * t)) &&& 3) * 4 ^ t := by
  have h4 : (2 : Nat) ^ (2 * t) = 4 ^ t := by rw [pow_mul]; norm_num
  rw [and_shl, Nat.shiftLeft_eq, h4]

theorem blindSpec_getElem (env : Caps S P Sig) (msghash : Bytes) (f : S) (n t : Nat)
    (ht : t < n - 1) :
    (blindSpec env msghash f n)[t]? =
      some (env.Reduce (env.streamHash "ChainCA.VRP.b" [msghash, env.scalarBytes f] t)) := by
  unfold blindSpec
  rw [List.getElem?_append_left (by simpa using ht), List.getElem?_map,
    List.getElem?_range ht]
  rfl

theorem blindSpec_take (env : Caps S P Sig) (msghash : Bytes) (f : S) (n : Nat) :
    (blindSpec env msghash f n).take (n - 1) =
      (List.range (n - 1)).map
        (fun t => env.Reduce (env.streamHash "ChainCA.VRP.b" [msghash, env.scalarBytes f] t)) := by
  unfold blindSpec
  rw [List.take_left' (by simp)]

theorem blindSpec_last (env : Caps S P Sig) (msghash : Bytes) (f : S) (n : Nat) :
    (blindSpec env msghash f n)[n - 1]? =
      some (f - ((blindSpec env msghash f n).take (n - 1)).sum) := by
  rw [blindSpec_take]
  unfold blindSpec
  rw [List.getElem?_append_right (by simp)]
  simp

/-! ## The ciphertext array -/

theorem copy32_val (s : Bytes) (hs : s.length = 32) : (copy32 zero32 s).val = s := by
  show goCopy (List.replicate 32 0) s = s
  unfold goCopy
  rw [List.length_replicate, List.take_of_length_le (by omega),
    List.drop_eq_nil_of_le (by simp [hs]), List.append_nil]

theorem chunk32_length (xs : Bytes) (i : Nat) (h : 32 * (i + 1) ≤ xs.length) :
    (chunk32 xs i).length = 32 := by
  unfold chunk32
  rw [List.length_take, List.length_drop]
  omega

theorem chunks_flatten : ∀ (k : Nat) (xs : Bytes), xs.length = 32 * k →
    ((List.range k).map (chunk32 xs)).flatten = xs := by
  intro k
  induction k with
  | zero =>
    intro xs h
    have : xs = [] := List.eq_nil_of_length_eq_zero (by simpa using h)
    simp [this]
  | succ k ih =>
    intro xs h
    have hd : (xs.drop 32).length = 32 * k := by rw [List.length_drop]; omega
    have hc : ∀ i, chunk32 xs (i + 1) = chunk32 (xs.drop 32) i := by
      intro i
      unfold chunk32
      rw [List.drop_drop, show 32 + 32 * i = 32 * (i + 1) by ring]
    rw [List.range_succ_eq_map, List.map_cons, List.map_map, List.flatten_cons]
    have hm : (List.range k).map (chunk32 xs ∘ Nat.succ) =
        (List.range k).map (chunk32 (xs.drop 32)) :=
      List.map_congr_left (fun i _ => hc i)
    rw [hm, ih _ hd]
    show (xs.drop (32 * 0)).take 32 ++ xs.drop 32 = xs
    simp

theorem lastSlot_val (ep : EncryptedPacket) (hn : ep.nonce.length = 8)
    (hm : ep.mac.length = 24) : (lastSlot zero32 ep).val = ep.nonce ++ ep.mac := by
  show goCopy ((List.replicate 32 (0 : Byte)).take 8) ep.nonce ++
    goCopy ((List.replicate 32 (0 : Byte)).drop 8) ep.mac = ep.nonce ++ ep.mac
  unfold goCopy
  have e1 : ((List.replicate 32 (0 : Byte)).take 8).length = 8 := by simp
  have e2 : ((List.replicate 32 (0 : Byte)).drop 8).length = 24 := by simp
  have t1 : ep.nonce.take 8 = ep.nonce := List.take_of_length_le (by omega)
  have t2 : ep.mac.take 24 = ep.mac := List.take_of_length_le (by omega)
  have d1 : ((List.replicate 32 (0 : Byte)).take 8).drop ep.nonce.length = [] :=
    List.drop_eq_nil_of_le (by omega)
  have d2 : ((List.replicate 32 (0 : Byte)).drop 8).drop ep.mac.length = [] :=
    List.drop_eq_nil_of_le (by omega)
  rw [e1, e2, t1, t2, d1, d2, List.append_nil, List.append_nil]

theorem uint64le_bytes (x : Nat) :
    (uint64le x).length = 8 ∧
      ∀ i, i < 8 → ((uint64le x).getD i 0).val = x / 256 ^ i % 256 := by
  refine ⟨by simp [uint64le], ?_⟩
  intro i hi
  simp [uint64le, List.getD_eq_getElem?_getD, List.getElem?_map, List.getElem?_range hi]

theorem ctSpec_length (N : Nat) (ep : EncryptedPacket) (hN : 1 ≤ N) :
    (ctSpec N ep).length = 2 * N := by
  simp only [ctSpec, List.length_append, List.length_map, List.length_range,
    List.length_singleton]
  omega

theorem ctSpec_getD (N : Nat) (ep : EncryptedPacket) (i : Nat) (hi : i < 2 * N - 1)
    (hct : ep.ct.length = 32 * (2 * N - 1)) :
    ((ctSpec N ep).getD i zero32).val = (ep.ct.drop (32 * i)).take 32 := by
  have h : (ctSpec N ep).getD i zero32 = copy32 zero32 (chunk32 ep.ct i) := by
    unfold ctSpec
    rw [List.getD_eq_getElem?_getD, List.getElem?_append_left (by simpa using hi),
      List.getElem?_map, List.getElem?_range hi]
    rfl
  rw [h, copy32_val _ (chunk32_length ep.ct i (by omega))]
  rfl

theorem ctSpec_take (N : Nat) (ep : EncryptedPacket)
    (hct : ep.ct.length = 32 * (2 * N - 1)) :
    (((ctSpec N ep).take (2 * N - 1)).map Subtype.val).flatten = ep.ct := by
  unfold ctSpec
  rw [List.take_left' (by simp), List.map_map]
  have hm : (List.range (2 * N - 1)).map
      (Subtype.val ∘ fun i => copy32 zero32 (chunk32 ep.ct i)) =
      (List.range (2 * N - 1)).map (chunk32 ep.ct) := by
    apply List.map_congr_left
    intro i hi
    exact copy32_val _ (chunk32_length ep.ct i (by have := List.mem_range.mp hi; omega))
  rw [hm, chunks_flatten _ _ hct]

theorem ctSpec_last (N : Nat) (ep : EncryptedPacket) (hn : ep.nonce.length = 8)
    (hm : ep.mac.length = 24) :
    ((ctSpec N ep).getD (2 * N - 1) zero32).val = ep.nonce ++ ep.mac := by
  have h : (ctSpec N ep).getD (2 * N - 1) zero32 = lastSlot zero32 ep := by
    unfold ctSpec
    rw [List.getD_eq_getElem?_getD, List.getElem?_append_right (by simp)]
    simp
  rw [h, lastSlot_val ep hn hm]

end Loops

/-! ## The concrete instance meets the contracts -/

theorem demo_complete : BrsComplete demoCaps := by
  intro msg B PQ b j ct _ _ _ h
  show openValidate (b, j) B PQ = true
  unfold openValidate
  rw [List.all_eq_true]
  intro t ht
  exact decide_eq_true (h t (List.mem_range.mp ht)).2.2.2

theorem demo_keeps_length : EncryptKeepsLength demoCaps := by
  intro key nonce p
  rfl

/-! ## The auxiliary plaintext, the ring candidates and the range guards -/

section MoreLoops

variable {S P Sig σ : Type} [Field S] [AddCommGroup P] [Module S P]

theorem goCopy_full (dst src : Bytes) (h : src.length = dst.length) : goCopy dst src = src := by
  unfold goCopy
  rw [← h, List.take_length, List.drop_eq_nil_of_le (le_of_eq h.symm), List.append_nil]

theorem fillBuf_eq : ∀ (ps : List Block32) (i : Nat) (done rest : Bytes),
    done.length = 32 * i → rest.length = 32 * ps.length →
      fillBuf ps i (done ++ rest) = done ++ (ps.map Subtype.val).flatten
  | [], i, done, rest, _, hr => by
    have : rest = [] := List.eq_nil_of_length_eq_zero (by simpa using hr)
    simp [fillBuf, this]
  | p :: ps, i, done, rest, hd, hr => by
    have hp : p.val.length = 32 := p.property
    have hr1 : rest.length = 32 + 32 * ps.length := by
      rw [hr, List.length_cons]; ring
    have h1 : (done ++ rest).take (32 * i) = done := by
      rw [← hd, List.take_left]
    have h2 : (done ++ rest).drop (32 * i) = rest := by
      rw [← hd, List.drop_left]
    have h3 : (done ++ rest).drop (32 * (i + 1)) = rest.drop 32 := by
      rw [show 32 * (i + 1) = done.length + 32 by omega, ← List.drop_drop, List.drop_left]
    have h4 : goCopy (rest.take 32) p.val = p.val := by
      apply goCopy_full
      rw [List.length_take, hp]
      omega
    rw [fillBuf, h1, h2, h3, h4,
      fillBuf_eq ps (i + 1) (done ++ p.val) (rest.drop 32)
        (by rw [List.length_append, hd, hp]; ring) (by rw [List.length_drop, hr1]; omega)]
    simp

theorem fillBuf_flatten (pt : List Block32) (k : Nat) (hk : pt.length = k) :
    fillBuf pt 0 (List.replicate (32 * k) 0) = (pt.map Subtype.val).flatten := by
  have h := fillBuf_eq pt 0 [] (List.replicate (32 * k) 0) rfl (by rw [List.length_replicate, hk])
  simpa using h

theorem flatten_length_const {α : Type} (g : α → Bytes) (k : Nat) (hg : ∀ a, (g a).length = k) :
    ∀ l : List α, ((l.map g).flatten).length = k * l.length
  | [] => by simp
  | a :: l => by
    rw [List.map_cons, List.flatten_cons, List.length_append, hg a,
      flatten_length_const g k hg l, List.length_cons]
    ring

theorem aux_flatten_length (pt : List Block32) :
    ((pt.map Subtype.val).flatten).length = 32 * pt.length :=
  flatten_length_const Subtype.val 32 (fun a => a.property) pt

theorem foldl_log (n : Nat) :
    (List.range n).foldl (fun (s : List Nat) m => s ++ [m]) [] = List.range n := by
  induction n with
  | zero => rfl
  | succ k ih => rw [List.range_succ, List.foldl_append, ih]; rfl

theorem vrpRing_cand (d : PointPair P) (x : S) (H C : P) (i : Nat) (hi : i < base) :
    (vrpRing d (x • H) (x • C)).getD i [] =
      [d.1 - ((i : S) * x) • H, d.2 - ((i : S) * x) • C] := by
  rw [vrpRing_eq]
  simp only [base] at hi
  interval_cases i
  · simp
  · simp
  · simp [add_smul, two_mul]
  · simp only [List.getD_cons_succ, List.getD_cons_zero, zero_add, Nat.cast_ofNat]
    rw [show ((3 : S) * x) = x + x + x by ring, add_smul, add_smul, add_smul, add_smul]

theorem shr_and_three (value t : Nat) : (value >>> (2 * t)) &&& 3 = value / 4 ^ t % 4 := by
  have h3 : (value >>> (2 * t)) &&& 3 = (value >>> (2 * t)) % 4 := by
    simpa using Nat.and_pow_two_sub_one_eq_mod (value >>> (2 * t)) 2
  rw [h3, Nat.shiftRight_eq_div_pow, pow_mul]
  norm_num

theorem guard_table : ∀ exp, exp < 11 → ∀ nbits, nbits < 65 →
    ((validateGuard nbits exp 0 = false ↔
        nbits + 4 * exp ≤ 64 ∧ 10 ^ exp * (2 ^ nbits - 1) < 2 ^ 63) ∧
      (nbits + 4 * exp ≤ 64 →
        validateP10 exp = 10 ^ exp ∧ u64sub (u64shl 1 nbits) 1 = 2 ^ nbits - 1 ∧
        u64 (validateP10 exp * u64sub (u64shl 1 nbits) 1) = 10 ^ exp * (2 ^ nbits - 1)) ∧
      (nbits = 64 → validateGuard nbits exp 0 = true)) := by
  decide

theorem validate_guarded (env : Caps S P Sig) (vrp : ValueRangeProof P Sig)
    (ac vc : PointPair P) (msg : Bytes)
    (h : validateGuard vrp.nbits vrp.exp vrp.vmin = true) :
    Validate env vrp ac vc msg = .ok false := by
  unfold Validate
  rw [if_pos h]

end MoreLoops

/-! ## The value-encryption engine -/

section ValueLemmas

variable {S P : Type} [Field S] [AddCommGroup P] [Module S P]

theorem parsePacket_wire (n c m : Bytes) (hn : n.length = 8) (hc : c.length = 40) :
    parsePacket (n ++ c ++ m) = ⟨c, n, m⟩ := by
  unfold parsePacket
  have h1 : (n ++ c ++ m).take 8 = n := by
    rw [List.append_assoc, List.take_append_of_le_length (by omega), ← hn, List.take_length]
  have h2 : (n ++ c ++ m).drop 8 = c ++ m := by
    rw [List.append_assoc, ← hn, List.drop_left]
  have h3 : (n ++ c ++ m).drop 48 = m := by
    have : (n ++ c).length = 48 := by simp [hn, hc]
    rw [← this, List.drop_left]
  rw [h1, h2, h3, List.take_append_of_le_length (by omega), ← hc, List.take_length]

theorem uint64FromLE_uint64le (v : Nat) (hv : v < 2 ^ 64) : uint64FromLE (uint64le v) = v := by
  simp only [uint64FromLE, uint64le, List.range_succ, List.range_zero, List.nil_append,
    List.cons_append, List.map_cons, List.map_nil, List.foldr_cons, List.foldr_nil]
  norm_num
  omega

theorem uint64le_length (v : Nat) : (uint64le v).length = 8 := by
  simp [uint64le]

theorem encryptValue_eq (env : ValueCaps S P) (hshape : ValuePacketShape env)
    (vc : PointPair P) (value : Nat) (f : S) (hf : (env.scalarBytes f).length = 32)
    (vek out : Bytes) (hout : out.length = EncryptedValueSize) :
    EncryptValue env vc value f vek out =
        .ok ((valuePacket env vc value f vek).nonce ++ (valuePacket env vc value f vek).ct ++
          (valuePacket env vc value f vek).mac) ∧
      (valuePacket env vc value f vek).nonce.length = 8 ∧
      (valuePacket env vc value f vek).ct.length = 40 ∧
      (valuePacket env vc value f vek).mac.length = 24 := by
  obtain ⟨h1, h2, h3⟩ := hshape (env.packetKey vek vc) none (uint64le value ++ env.scalarBytes f)
  have hct : (valuePacket env vc value f vek).ct.length = 40 := by
    unfold valuePacket
    rw [h1, List.length_append, uint64le_length, hf]
  refine ⟨?_, h2, hct, h3⟩
  unfold EncryptValue
  rw [if_neg (by rw [hout]; exact fun h => h rfl)]
  show Except.ok (goCopy out ((valuePacket env vc value f vek).nonce ++
    (valuePacket env vc value f vek).ct ++ (valuePacket env vc value f vek).mac)) = _
  rw [goCopy_full]
  have h2p : (valuePacket env vc value f vek).nonce.length = 8 := h2
  have h3p : (valuePacket env vc value f vek).mac.length = 24 := h3
  rw [List.length_append, List.length_append, h2p, hct, h3p, hout]
  rfl

theorem flipBit_length (buf : Bytes) (i j : Nat) : (flipBit buf i j).length = buf.length := by
  simp [flipBit]

theorem flipBit_append_left (a b : Bytes) (i j : Nat) (h : i < a.length) :
    flipBit (a ++ b) i j = flipBit a i j ++ b := by
  unfold flipBit
  rw [List.set_append, if_pos h, List.getD_append _ _ _ _ h]

theorem flipBit_append_right (a b : Bytes) (i j : Nat) (h : a.length ≤ i) :
    flipBit (a ++ b) i j = a ++ flipBit b (i - a.length) j := by
  unfold flipBit
  rw [List.set_append, if_neg (by omega), List.getD_append_right _ _ _ _ h]

theorem flipped_packet (n c m : Bytes) (hn : n.length = 8) (hc : c.length = 40)
    (hm : m.length = 24) (i j : Nat) (hi : i < 72) (hj : j < 8) :
    OneBitOff ⟨c, n, m⟩ (parsePacket (flipBit (n ++ c ++ m) i j)) := by
  by_cases h1 : i < 8
  · refine ⟨i, j, hj, Or.inl ⟨by show i < n.length; omega, ?_⟩⟩
    rw [List.append_assoc, flipBit_append_left _ _ _ _ (by omega), ← List.append_assoc,
      parsePacket_wire _ _ _ (by rw [flipBit_length]; exact hn) hc]
  · by_cases h2 : i < 48
    · refine ⟨i - 8, j, hj, Or.inr (Or.inl ⟨by show i - 8 < c.length; omega, ?_⟩)⟩
      rw [List.append_assoc, flipBit_append_right _ _ _ _ (by omega),
        flipBit_append_left _ _ _ _ (by omega), ← List.append_assoc, hn,
        parsePacket_wire _ _ _ hn (by rw [flipBit_length]; exact hc)]
    · refine ⟨i - 48, j, hj, Or.inr (Or.inr ⟨by show i - 48 < m.length; omega, ?_⟩)⟩
      have hl : (n ++ c).length = 48 := by rw [List.length_append, hn, hc]
      rw [flipBit_append_right _ _ _ _ (by omega), hl, parsePacket_wire _ _ _ hn hc]

end ValueLemmas

theorem flipped_byte_ne (b : Byte) (j : Nat) (hj : j < 8) :
    (Fin.ofNat (b.val ^^^ ((1 <<< j) % 256)) : Byte).val ≠ b.val := by
  have hm : (1 <<< j) % 256 = 2 ^ j := by
    rw [Nat.one_shiftLeft]
    apply Nat.mod_eq_of_lt
    calc 2 ^ j ≤ 2 ^ 7 := Nat.pow_le_pow_right (by norm_num) (by omega)
      _ < 256 := by norm_num
  have hlt : 2 ^ j < 2 ^ 8 := Nat.pow_lt_pow_right (by norm_num) hj
  have hb : b.val < 2 ^ 8 := b.isLt
  have hx : b.val ^^^ 2 ^ j < 256 := Nat.xor_lt_two_pow hb hlt
  rw [hm]
  show (b.val ^^^ 2 ^ j) % 256 ≠ b.val
  rw [Nat.mod_eq_of_lt hx]
  intro h
  have h0 : b.val ^^^ 2 ^ j = b.val ^^^ 0 := by rw [h, Nat.xor_zero]
  have := Nat.xor_right_injective h0
  exact absurd this (by positivity)

theorem flipBit_sum_ne : ∀ (buf : Bytes) (i j : Nat), i < buf.length → j < 8 →
    ((flipBit buf i j).map Fin.val).sum % 256 ≠ (buf.map Fin.val).sum % 256
  | [], i, j, hi, _ => absurd hi (by simp)
  | a :: r, 0, j, _, hj => by
    have h := flipped_byte_ne a j hj
    have h1 := (Fin.ofNat (a.val ^^^ ((1 <<< j) % 256)) : Byte).isLt
    have h2 := a.isLt
    simp only [flipBit, List.set_cons_zero, List.getD_cons_zero, List.map_cons, List.sum_cons]
    omega
  | a :: r, i + 1, j, hi, hj => by
    have ih := flipBit_sum_ne r i j (by simpa using hi) hj
    have e : flipBit (a :: r) (i + 1) j = a :: flipBit r i j := by
      simp [flipBit]
    rw [e]
    simp only [List.map_cons, List.sum_cons]
    omega

theorem flipBit_ne (buf : Bytes) (i j : Nat) (hi : i < buf.length) (hj : j < 8) :
    flipBit buf i j ≠ buf := by
  intro h
  have := flipBit_sum_ne buf i j hi hj
  rw [h] at this
  exact this rfl

/-! ## The concrete value-encryption capabilities meet their contracts -/

theorem demo_value_shape : ValuePacketShape demoValueCaps := by
  intro key nonce p
  exact ⟨rfl, rfl, rfl⟩

theorem demo_value_codec : ScalarCodec demoValueCaps := by
  intro f
  refine ⟨rfl, ?_⟩
  show (if (Fin.ofNat f.val :: List.replicate 31 (0 : Byte)).length = 32 then
    some ((((Fin.ofNat f.val :: List.replicate 31 (0 : Byte)).headD 0).val : Nat) : DemoScalar)
    else none) = some f
  rw [if_pos (by simp)]
  congr 1
  have hlt : f.val < 13 := ZMod.val_lt f
  show (((f.val % 256 : Nat)) : DemoScalar) = f
  rw [Nat.mod_eq_of_lt (by omega)]
  exact ZMod.natCast_zmod_val f

theorem demo_value_round : PacketRoundTrip demoValueCaps := by
  intro key nonce p
  show (if demoTag (List.replicate 8 0) p = demoTag (List.replicate 8 0) p then some p else none) =
    some p
  rw [if_pos rfl]

theorem demoTag_ne (n c n1 c1 : Bytes)
    (h : ((n1 ++ c1).map Fin.val).sum % 256 ≠ ((n ++ c).map Fin.val).sum % 256) :
    demoTag n c ≠ demoTag n1 c1 := by
  intro e
  unfold demoTag at e
  have e1 := congrArg Fin.val (List.cons.inj e).1
  exact h e1.symm

theorem demo_encrypt_eq (key : Bytes) (nonce : Option Bytes) (p : Bytes) :
    demoValueCaps.EncryptPacket key nonce p =
      ⟨p, List.replicate 8 0, demoTag (List.replicate 8 0) p⟩ := rfl

theorem demo_decrypt_eq (key : Bytes) (ep : EncryptedPacket) :
    demoValueCaps.DecryptPacket key ep =
      if ep.mac = demoTag ep.nonce ep.ct then some ep.ct else none := rfl

theorem demo_value_closed : FailsClosed demoValueCaps := by
  intro key nonce p ep1 hoff
  rw [demo_encrypt_eq] at hoff
  rw [demo_decrypt_eq]
  have hl : (List.replicate 8 (0 : Byte)).length = 8 := List.length_replicate 8 0
  obtain ⟨i, j, hj, h | h | h⟩ := hoff
  · obtain ⟨hi, rfl⟩ := h
    have hi8 : i < (List.replicate 8 (0 : Byte)).length := hi
    apply if_neg
    apply demoTag_ne
    show ((flipBit (List.replicate 8 0) i j ++ p).map Fin.val).sum % 256 ≠ _
    rw [← flipBit_append_left _ _ _ _ hi8]
    exact flipBit_sum_ne _ i j (by rw [List.length_append]; exact Nat.lt_add_right _ hi8) hj
  · obtain ⟨hi, rfl⟩ := h
    have hip : i < p.length := hi
    apply if_neg
    apply demoTag_ne
    have e := flipBit_append_right (List.replicate 8 0) p (i + 8) j (by rw [hl]; omega)
    rw [hl, Nat.add_sub_cancel] at e
    show ((List.replicate 8 0 ++ flipBit p i j).map Fin.val).sum % 256 ≠ _
    rw [← e]
    exact flipBit_sum_ne _ (i + 8) j (by rw [List.length_append, hl]; omega) hj
  · obtain ⟨hi, rfl⟩ := h
    apply if_neg
    exact flipBit_ne _ i j hi hj

/-! ## The claims -/

section Claims

variable {S P Sig : Type} [Field S] [AddCommGroup P] [Module S P]

/-- Claim C1, as amended: for every `N` in 8, 16, 32, 48 (not 64), every
`value < 2 ^ N`, every blinding scalar `f`, every auxiliary plaintext of `2N - 1`
slots and every key and message, with `VC = (value·H + f·G, value·C + f·J)`, a
complete ring-signature engine and a packet encryption that keeps the length of
its plaintext, `CreateValueRangeProof` returns a proof and `Validate` accepts it
against the same commitments and message. -/
theorem range_proof_complete (env : Caps S P Sig) (hcomplete : BrsComplete env)
    (henc : EncryptKeepsLength env) (AC : PointPair P) (N value : Nat) (pt : List Block32)
    (f : S) (idek vek msg : Bytes) (hN : N = 8 ∨ N = 16 ∨ N = 32 ∨ N = 48)
    (hpt : pt.length = 2 * N - 1) (hv : value < 2 ^ N) :
    ∃ p, CreateValueRangeProof env AC
          ((value : S) • AC.1 + f • env.G, (value : S) • AC.2 + f • env.J)
          N value pt f idek vek msg = .ok p ∧
      Validate env p AC
          ((value : S) • AC.1 + f • env.G, (value : S) • AC.2 + f • env.J) msg = .ok true := by
  have hlo : 8 ≤ N := by omega
  have hhi : N ≤ 48 := by omega
  have e5 : u64sub (N / 2) 1 = N / 2 - 1 := u64sub_one (by omega) (by omega)
  refine ⟨_, by
    unfold CreateValueRangeProof
    rw [createTrace_eq env AC _ N value pt f idek msg hN hpt hv henc], ?_⟩
  simp only [createSpec, e5]
  rw [validate_created env AC N value f msg _ hN hv]
  congr 1
  apply hcomplete
  · rw [pqSpec_length]
    exact blindSpec_length env _ f _ (by omega)
  · rw [pqSpec_length]
    simp
  · rw [pqSpec_length]
    simp only [ctSpec, List.length_append, List.length_map, List.length_range,
      List.length_singleton, base]
    omega
  · intro t ht
    rw [pqSpec_length] at ht
    rw [pqSpec_getD AC _ _ t ht]
    refine ⟨(vrpRing_shape _ _ _).1, (vrpRing_shape _ _ _).2, ?_, ?_⟩
    · simp only [List.getD_eq_getElem?_getD, List.getElem?_map, List.getElem?_range ht,
        Option.map_some', Option.getD_some, base]
      rw [digitIdx_eq value t (by omega)]
      exact Nat.mod_lt _ (by norm_num)
    · have hj : ((List.range (N / 2)).map
          (fun t => digitVal value t >>> u64 (2 * t))).getD t 0 =
          digitVal value t >>> u64 (2 * t) := by
        simp only [List.getD_eq_getElem?_getD, List.getElem?_map, List.getElem?_range ht,
          Option.map_some', Option.getD_some]
      rw [hj]
      exact ring_opening env AC value _ t (by omega)

/-- The amended claim C1 applies to the concrete instance: `N = 8`, `value = 200`. -/
theorem range_proof_complete_witness :
    (8 = 8 ∨ 8 = 16 ∨ 8 = 32 ∨ 8 = 48) ∧ (List.replicate 15 zero32).length = 2 * 8 - 1 ∧
      200 < 2 ^ 8 ∧
      ∃ p, CreateValueRangeProof demoCaps demoAC (demoVC 200 7) 8 200
            (List.replicate 15 zero32) 7 [] [] [] = .ok p ∧
        Validate demoCaps p demoAC (demoVC 200 7) [] = .ok true :=
  ⟨by decide, by decide, by decide,
    range_proof_complete demoCaps demo_complete demo_keeps_length demoAC 8 200
      (List.replicate 15 zero32) 7 [] [] [] (by decide) (by decide) (by decide)⟩

/-- Claim C1 as stated fails at `N = 64`: with a complete engine, a length-keeping
packet encryption, `value = 0 < 2 ^ 64` and 127 auxiliary slots,
`CreateValueRangeProof` panics and returns no proof. -/
theorem range_proof_incomplete_at_64 :
    BrsComplete demoCaps ∧ EncryptKeepsLength demoCaps ∧
      (List.replicate 127 zero32).length = 2 * 64 - 1 ∧ 0 < 2 ^ 64 ∧
      ¬ ∃ p, CreateValueRangeProof demoCaps demoAC (demoVC 0 7) 64 0
            (List.replicate 127 zero32) 7 [] [] [] = .ok p ∧
        Validate demoCaps p demoAC (demoVC 0 7) [] = .ok true := by
  refine ⟨demo_complete, demo_keeps_length, by simp, by norm_num, ?_⟩
  rintro ⟨p, hp, -⟩
  have h : createTrace demoCaps demoAC (demoVC 0 7) 64 0 (List.replicate 127 zero32) 7 [] [] =
      .error "calling error" := by
    unfold createTrace
    rw [if_neg (by simp [u64, u64sub]), if_neg (by simp), if_pos (by simp [u64shl])]
  unfold CreateValueRangeProof at hp
  rw [h] at hp
  exact absurd hp (by simp)

/-- Claim C2 (code defect): with `N = 64` the check `value >= 1<<N` compares against
`1<<64 = 0` in `uint64`, so `CreateValueRangeProof` panics with a calling error for
every value and every auxiliary plaintext, although the `switch` admits 64. -/
theorem create_panics_at_64 (env : Caps S P Sig) (AC VC : PointPair P) (value : Nat)
    (pt : List Block32) (f : S) (idek vek msg : Bytes) :
    CreateValueRangeProof env AC VC 64 value pt f idek vek msg = .error "calling error" := by
  have h : createTrace env AC VC 64 value pt f idek msg = .error "calling error" := by
    unfold createTrace
    have h0 : u64shl 1 64 = 0 := by decide
    split
    · rfl
    · rw [if_neg (by simp), if_pos (by rw [h0]; exact Nat.zero_le _)]
  unfold CreateValueRangeProof
  rw [h]

/-- Claim C3 (code defect): the sum `vmin + p10*((1<<nbits)-1)` wraps in `uint64`.
With `nbits = 64`, `exp = 0`, `vmin = 1` the implied maximum `1 + 10^0·(2^64 - 1)`
is `2^64 ≥ 2^63` over the integers, yet no guard fires and `Validate` returns the
verdict of the ring-signature engine, here `true`. -/
theorem validate_accepts_wrapped_maximum :
    2 ^ 63 ≤ 1 + 10 ^ 0 * (2 ^ 64 - 1) ∧
      validateGuard 64 0 1 = false ∧
      Validate demoCaps
        ⟨64, 0, 1, List.replicate 31 (0, 0), (List.replicate 32 0, List.replicate 32 0)⟩
        demoAC demoAC [] = .ok true := by
  refine ⟨by norm_num, by decide, ?_⟩
  rfl

/-- Claim C4 (code defect): `Validate` does not check the number of retained digit
pairs.  A proof with `nbits = 4` (so `n = 2`) and no digit pair passes every guard
and the closure then evaluates `vrp.digits[0]`, an index-out-of-range panic, for
every engine, signature, commitment and message. -/
theorem validate_panics_on_missing_digits (env : Caps S P Sig) (sig : Sig)
    (ac vc : PointPair P) (msg : Bytes) :
    Validate env ⟨4, 0, 0, [], sig⟩ ac vc msg = .error "index out of range" := by
  have hg : validateGuard 4 0 0 = false := by decide
  unfold Validate
  simp only [hg, Bool.false_eq_true, if_false]
  unfold vrpCalcPQ
  rw [show (4 : Nat) / 2 = 1 + 1 by norm_num, vrpCalcPQLoop]
  simp [validateDigit, u64sub]

/-- Claim C5: whenever `CreateValueRangeProof` returns (its run kept the locals
`tr`), with `VC = (value·H + f·G, value·C + f·J)` and `n = N/2`, the returned proof
`p` retains the first `n - 1` of the `n` pairs of `DB`, has `exp = vmin = 0`, and
the pair `lastDB` that `p.Validate(AC, VC, msg)` computes, which is `VC` minus the
sum of the retained pairs, is the pair `DB[n-1]` that was left out. -/
theorem last_pair_reconstructible (env : Caps S P Sig) (AC : PointPair P) (N value : Nat)
    (pt : List Block32) (f : S) (idek vek msg : Bytes) (tr : CreateTrace S P Sig)
    (htr : createTrace env AC
      ((value : S) • AC.1 + f • env.G, (value : S) • AC.2 + f • env.J)
      N value pt f idek msg = .ok tr) :
    ∃ p, CreateValueRangeProof env AC
          ((value : S) • AC.1 + f • env.G, (value : S) • AC.2 + f • env.J)
          N value pt f idek vek msg = .ok p ∧
      p.exp = 0 ∧ p.vmin = 0 ∧ tr.DB.length = N / 2 ∧ p.digits = tr.DB.take (N / 2 - 1) ∧
      validateLastDB p AC
          ((value : S) • AC.1 + f • env.G, (value : S) • AC.2 + f • env.J) S =
        ((value : S) • AC.1 + f • env.G, (value : S) • AC.2 + f • env.J) - p.digits.sum ∧
      tr.DB[N / 2 - 1]? = some (validateLastDB p AC
          ((value : S) • AC.1 + f • env.G, (value : S) • AC.2 + f • env.J) S) := by
  obtain ⟨hN, hv, ct, -, rfl⟩ := createTrace_spec env AC _ N value pt f idek msg tr htr
  have hlo : 8 ≤ N := by omega
  have hhi : N ≤ 48 := by omega
  have e5 : u64sub (N / 2) 1 = N / 2 - 1 := u64sub_one (by omega) (by omega)
  have hv4 : value < 4 ^ (N / 2) := by rw [four_pow_half N hN]; exact hv
  refine ⟨_, by unfold CreateValueRangeProof; rw [htr], rfl, rfl, by simp [createSpec], ?_, ?_, ?_⟩
  · simp only [createSpec, e5]
  · simp only [validateLastDB, Nat.cast_zero, zero_smul, sub_zero, powerOf10, neg_zero,
      zpow_zero, one_smul, foldl_add_eq_sum]
  · simp only [createSpec, e5]
    rw [lastDB_eq env AC value (N / 2) N _ f _ (by omega) (by omega) hv4, List.getElem?_map,
      List.getElem?_range (by omega)]
    rfl

/-- Claim C5 applies to the concrete instance: `N = 8`, `value = 200`. -/
theorem last_pair_reconstructible_witness :
    ∃ tr, createTrace demoCaps demoAC (demoVC 200 7) 8 200 (List.replicate 15 zero32) 7 [] [] =
        .ok tr ∧
      ∃ p, CreateValueRangeProof demoCaps demoAC (demoVC 200 7) 8 200
            (List.replicate 15 zero32) 7 [] [] [] = .ok p ∧
        p.exp = 0 ∧ p.vmin = 0 ∧ tr.DB.length = 8 / 2 ∧ p.digits = tr.DB.take (8 / 2 - 1) ∧
        validateLastDB p demoAC (demoVC 200 7) DemoScalar = demoVC 200 7 - p.digits.sum ∧
        tr.DB[8 / 2 - 1]? = some (validateLastDB p demoAC (demoVC 200 7) DemoScalar) :=
  ⟨_, createTrace_eq demoCaps demoAC (demoVC 200 7) 8 200 (List.replicate 15 zero32) 7 [] []
      (by decide) (by decide) (by decide) demo_keeps_length,
    last_pair_reconstructible demoCaps demoAC 8 200 (List.replicate 15 zero32) 7 [] [] [] _
      (createTrace_eq demoCaps demoAC (demoVC 200 7) 8 200 (List.replicate 15 zero32) 7 [] []
        (by decide) (by decide) (by decide) demo_keeps_length)⟩

/-- Claim C6, as amended: in every run of `CreateValueRangeProof` that returns, for
every position `t < n = N/2` the committed scalar is the masked value
`value & (3 << 2t)`, which is `digit[t]·4^t` with `digit[t] = (value >> 2t) & 3`
(and not `digit[t]` itself): `D[t] = (digit[t]·4^t)·H + b[t]·G` and
`B[t] = (digit[t]·4^t)·C + b[t]·J`. -/
theorem digit_commitment_scalar (env : Caps S P Sig) (AC VC : PointPair P) (N value : Nat)
    (pt : List Block32) (f : S) (idek msg : Bytes) (tr : CreateTrace S P Sig)
    (htr : createTrace env AC VC N value pt f idek msg = .ok tr) (t : Nat)
    (ht : t < N / 2) :
    value &&& (3 <<< (2 * t)) = ((value >>> (2 * t)) &&& 3) * 4 ^ t ∧
      (value >>> (2 * t)) &&& 3 < 4 ∧
      tr.DB[t]? = some
        (((((value >>> (2 * t)) &&& 3) * 4 ^ t : Nat) : S) • AC.1 + tr.b.getD t 0 • env.G,
          ((((value >>> (2 * t)) &&& 3) * 4 ^ t : Nat) : S) • AC.2 + tr.b.getD t 0 • env.J) := by
  obtain ⟨hN, hv, ct, -, rfl⟩ := createTrace_spec env AC VC N value pt f idek msg tr htr
  have hhi : N ≤ 48 := by omega
  have h3 : (value >>> (2 * t)) &&& 3 = (value >>> (2 * t)) % 4 := by
    simpa using Nat.and_pow_two_sub_one_eq_mod (value >>> (2 * t)) 2
  refine ⟨mask_eq value t, by rw [h3]; exact Nat.mod_lt _ (by norm_num), ?_⟩
  simp only [createSpec]
  rw [List.getElem?_map, List.getElem?_range ht, ← mask_eq, ← digitVal_mask value t (by omega)]
  rfl

/-- Claim C6 (amended) applies to the concrete instance: `N = 8`, `value = 4`, `t = 1`. -/
theorem digit_commitment_scalar_witness :
    ∃ tr, createTrace demoCaps demoAC (demoVC 4 7) 8 4 (List.replicate 15 zero32) 7 [] [] =
        .ok tr ∧ 1 < 8 / 2 ∧
      4 &&& (3 <<< (2 * 1)) = ((4 >>> (2 * 1)) &&& 3) * 4 ^ 1 ∧
      (4 >>> (2 * 1)) &&& 3 < 4 ∧
      tr.DB[1]? = some
        (((((4 >>> (2 * 1)) &&& 3) * 4 ^ 1 : Nat) : DemoScalar) • demoAC.1 +
            tr.b.getD 1 0 • demoCaps.G,
          ((((4 >>> (2 * 1)) &&& 3) * 4 ^ 1 : Nat) : DemoScalar) • demoAC.2 +
            tr.b.getD 1 0 • demoCaps.J) :=
  ⟨_, createTrace_eq demoCaps demoAC (demoVC 4 7) 8 4 (List.replicate 15 zero32) 7 [] []
      (by decide) (by decide) (by decide) demo_keeps_length, by decide,
    digit_commitment_scalar demoCaps demoAC (demoVC 4 7) 8 4 (List.replicate 15 zero32) 7 [] [] _
      (createTrace_eq demoCaps demoAC (demoVC 4 7) 8 4 (List.replicate 15 zero32) 7 [] []
        (by decide) (by decide) (by decide) demo_keeps_length) 1 (by decide)⟩

/-- Claim C6 as stated fails: with `N = 8`, `value = 4` and `t = 1` the base-4 digit
is `(4 >> 2) & 3 = 1`, but the pair the code computes for position 1 is not
`(1·H + b[1]·G, 1·C + b[1]·J)`; it commits to `4 = 1·4^1`. -/
theorem digit_is_not_the_committed_scalar :
    ∃ tr, createTrace demoCaps demoAC (demoVC 4 7) 8 4 (List.replicate 15 zero32) 7 [] [] =
        .ok tr ∧ (4 >>> (2 * 1)) &&& 3 = 1 ∧
      tr.DB[1]? ≠ some
        (((1 : Nat) : DemoScalar) • demoAC.1 + tr.b.getD 1 0 • demoCaps.G,
          ((1 : Nat) : DemoScalar) • demoAC.2 + tr.b.getD 1 0 • demoCaps.J) :=
  ⟨_, createTrace_eq demoCaps demoAC (demoVC 4 7) 8 4 (List.replicate 15 zero32) 7 [] []
      (by decide) (by decide) (by decide) demo_keeps_length, by decide, by decide⟩

/-- Claim C7: in every run of `CreateValueRangeProof` that returns, with `n = N/2`,
the array `b` has `n` scalars, `b[t]` for `t < n - 1` is the reduction of the `t`-th
64-byte block of the stream hash (whatever that block is), `b[n-1]` is `f` minus the
sum of the others, and so `b[0] + ... + b[n-1] = f` in the scalar field. -/
theorem blinding_scalars_sum (env : Caps S P Sig) (AC VC : PointPair P) (N value : Nat)
    (pt : List Block32) (f : S) (idek msg : Bytes) (tr : CreateTrace S P Sig)
    (htr : createTrace env AC VC N value pt f idek msg = .ok tr) :
    tr.b.length = N / 2 ∧
      (∀ t, t < N / 2 - 1 → tr.b[t]? = some (env.Reduce
        (env.streamHash "ChainCA.VRP.b" [vrpMsgHash env AC VC N 0 0 msg, env.scalarBytes f] t))) ∧
      tr.b[N / 2 - 1]? = some (f - (tr.b.take (N / 2 - 1)).sum) ∧
      tr.b.sum = f := by
  obtain ⟨hN, hv, ct, -, rfl⟩ := createTrace_spec env AC VC N value pt f idek msg tr htr
  have hlo : 8 ≤ N := by omega
  simp only [createSpec]
  exact ⟨blindSpec_length env _ f _ (by omega), fun t ht => blindSpec_getElem env _ f _ t ht,
    blindSpec_last env _ f _, blindSpec_sum env _ f _⟩

/-- Claim C7 applies to the concrete instance: `N = 8`, `value = 200`, `f = 7`. -/
theorem blinding_scalars_sum_witness :
    ∃ tr, createTrace demoCaps demoAC (demoVC 200 7) 8 200 (List.replicate 15 zero32) 7 [] [] =
        .ok tr ∧ tr.b.length = 8 / 2 ∧
      (∀ t, t < 8 / 2 - 1 → tr.b[t]? = some (demoCaps.Reduce
        (demoCaps.streamHash "ChainCA.VRP.b"
          [vrpMsgHash demoCaps demoAC (demoVC 200 7) 8 0 0 [], demoCaps.scalarBytes 7] t))) ∧
      tr.b[8 / 2 - 1]? = some (7 - (tr.b.take (8 / 2 - 1)).sum) ∧
      tr.b.sum = 7 :=
  ⟨_, createTrace_eq demoCaps demoAC (demoVC 200 7) 8 200 (List.replicate 15 zero32) 7 [] []
      (by decide) (by decide) (by decide) demo_keeps_length,
    blinding_scalars_sum demoCaps demoAC (demoVC 200 7) 8 200 (List.replicate 15 zero32) 7 [] [] _
      (createTrace_eq demoCaps demoAC (demoVC 200 7) 8 200 (List.replicate 15 zero32) 7 [] []
        (by decide) (by decide) (by decide) demo_keeps_length)⟩

/-- Claim C8: for every proof with exactly `n - 1 = nbits/2 - 1` retained digit
pairs on which no range guard fires, `Validate(ac, vc, msg)` does not panic and
returns `brs.Validate(msghash, [G, J], PQ)`, where
`msghash = vrpMsgHash(ac, vc, nbits, exp, vmin, msg)` and `PQ` is what `vrpCalcPQ`
builds from the retained pairs in rows `t < n - 1` and from
`10^(-exp)·(vc - vmin·ac) - Σ retained pairs` in row `n - 1`; so it returns `true`
exactly when that engine call does. -/
theorem validate_is_engine_verdict (env : Caps S P Sig) (vrp : ValueRangeProof P Sig)
    (ac vc : PointPair P) (msg : Bytes) (hbits : vrp.nbits < 2 ^ 64)
    (hguard : validateGuard vrp.nbits vrp.exp vrp.vmin = false)
    (hlen : vrp.digits.length = vrp.nbits / 2 - 1) :
    ∃ PQ, vrpCalcPQ (S := S) ac (vrp.nbits / 2)
          (fun t (s : Unit) => .ok
            (if t = vrp.nbits / 2 - 1 then
                (10 : S) ^ (-(vrp.exp : Int)) • (vc - (vrp.vmin : S) • ac) - vrp.digits.sum
              else vrp.digits.getD t 0, s)) () = .ok (PQ, ()) ∧
      Validate env vrp ac vc msg =
        .ok (env.brsValidate vrp.brs
          (vrpMsgHash env ac vc vrp.nbits vrp.exp vrp.vmin msg) [env.G, env.J] PQ) ∧
      (Validate env vrp ac vc msg = .ok true ↔
        env.brsValidate vrp.brs
          (vrpMsgHash env ac vc vrp.nbits vrp.exp vrp.vmin msg) [env.G, env.J] PQ = true) := by
  have hrun := validate_run env vrp ac vc msg hbits hguard (le_of_eq hlen.symm)
  have hpair : ∀ t, validatePair vrp ac vc S t =
      (if t = vrp.nbits / 2 - 1 then
          (10 : S) ^ (-(vrp.exp : Int)) • (vc - (vrp.vmin : S) • ac) - vrp.digits.sum
        else vrp.digits.getD t 0) := by
    intro t
    simp only [validatePair, validateLastDB, powerOf10, foldl_add_eq_sum]
  refine ⟨pqSpec S ac (vrp.nbits / 2) (validatePair vrp ac vc S), ?_, hrun, ?_⟩
  · rw [vrpCalcPQ_ok (S := S) ac (vrp.nbits / 2) _ (validatePair vrp ac vc S) (fun _ s => s)
      (fun _ => True) () trivial]
    intro i _ s _
    exact ⟨by rw [hpair], trivial⟩
  · rw [hrun]
    constructor
    · intro h
      exact Except.ok.inj h
    · intro h
      rw [h]

/-- Claim C8 applies to the concrete instance: `nbits = 8`, three zero pairs. -/
theorem validate_is_engine_verdict_witness :
    (8 : Nat) < 2 ^ 64 ∧ validateGuard 8 0 0 = false ∧
      (List.replicate 3 ((0, 0) : PointPair DemoPoint)).length = 8 / 2 - 1 ∧
      ∃ PQ, vrpCalcPQ (S := DemoScalar) demoAC (8 / 2)
            (fun t (s : Unit) => .ok
              (if t = 8 / 2 - 1 then
                  (10 : DemoScalar) ^ (-((0 : Nat) : Int)) •
                      (demoVC 200 7 - ((0 : Nat) : DemoScalar) • demoAC) -
                    (List.replicate 3 ((0, 0) : PointPair DemoPoint)).sum
                else (List.replicate 3 ((0, 0) : PointPair DemoPoint)).getD t 0, s)) () =
            .ok (PQ, ()) ∧
        Validate demoCaps ⟨8, 0, 0, List.replicate 3 (0, 0), ([], [])⟩ demoAC (demoVC 200 7) [] =
          .ok (demoCaps.brsValidate ([], [])
            (vrpMsgHash demoCaps demoAC (demoVC 200 7) 8 0 0 []) [demoCaps.G, demoCaps.J] PQ) ∧
        (Validate demoCaps ⟨8, 0, 0, List.replicate 3 (0, 0), ([], [])⟩ demoAC (demoVC 200 7) [] =
            .ok true ↔
          demoCaps.brsValidate ([], [])
            (vrpMsgHash demoCaps demoAC (demoVC 200 7) 8 0 0 []) [demoCaps.G, demoCaps.J] PQ =
            true) :=
  ⟨by norm_num, by decide, by decide,
    validate_is_engine_verdict demoCaps ⟨8, 0, 0, List.replicate 3 (0, 0), ([], [])⟩ demoAC
      (demoVC 200 7) [] (by norm_num) (by decide) (by decide)⟩

/-- Claim C9: `vrpMsgHash(ac, vc, N, exp, vmin, msg)` is `hash256` under the tag
"ChainCA.VRP" of `ac`'s bytes, `vc`'s bytes, then `N`, `exp`, `vmin` as 8-byte
little-endian integers, then `msg`, in this order; and whenever
`CreateValueRangeProof` returns a proof `p`, the hash it handed to the
ring-signature engine and the hash `p.Validate(AC, VC, msg)` hands to it are both
`vrpMsgHash(AC, VC, N, 0, 0, msg)`. -/
theorem msg_hash_binding (env : Caps S P Sig) (AC VC : PointPair P) (N value : Nat)
    (pt : List Block32) (f : S) (idek vek msg : Bytes) (tr : CreateTrace S P Sig)
    (htr : createTrace env AC VC N value pt f idek msg = .ok tr) :
    (∀ (ac vc : PointPair P) (n exp vmin : Nat) (m : Bytes),
        vrpMsgHash env ac vc n exp vmin m =
          env.hash256 "ChainCA.VRP"
            [env.pairBytes ac, env.pairBytes vc, uint64le n, uint64le exp, uint64le vmin, m]) ∧
      (∀ x, (uint64le x).length = 8 ∧
        ∀ i, i < 8 → ((uint64le x).getD i 0).val = x / 256 ^ i % 256) ∧
      tr.brs = env.CreateBorromeanRingSignature (vrpMsgHash env AC VC N 0 0 msg)
        [env.G, env.J] tr.PQ tr.b tr.j tr.ct ∧
      ∃ p PQ, CreateValueRangeProof env AC VC N value pt f idek vek msg = .ok p ∧
        p.brs = tr.brs ∧
        vrpMsgHash env AC VC p.nbits p.exp p.vmin msg = vrpMsgHash env AC VC N 0 0 msg ∧
        Validate env p AC VC msg =
          .ok (env.brsValidate p.brs (vrpMsgHash env AC VC N 0 0 msg) [env.G, env.J] PQ) := by
  obtain ⟨hN, hv, ct, -, rfl⟩ := createTrace_spec env AC VC N value pt f idek msg tr htr
  have hlo : 8 ≤ N := by omega
  have hhi : N ≤ 48 := by omega
  have e5 : u64sub (N / 2) 1 = N / 2 - 1 := u64sub_one (by omega) (by omega)
  have hc : CreateValueRangeProof env AC VC N value pt f idek vek msg =
      .ok ⟨N, 0, 0, (createSpec env AC VC N value pt f idek msg ct).DB.take (u64sub (N / 2) 1),
        (createSpec env AC VC N value pt f idek msg ct).brs⟩ := by
    unfold CreateValueRangeProof
    rw [htr]
  exact ⟨fun _ _ _ _ _ _ => rfl, uint64le_bytes, rfl, _, _, hc, rfl, rfl,
    validate_run env _ AC VC msg (by show N < 2 ^ 64; omega) (guard_of_created N hN)
      (by simp [createSpec, e5])⟩

/-- Claim C9 applies to the concrete instance: `N = 8`, `value = 200`. -/
theorem msg_hash_binding_witness :
    ∃ tr, createTrace demoCaps demoAC (demoVC 200 7) 8 200 (List.replicate 15 zero32) 7 [] [] =
        .ok tr ∧
      (∀ (ac vc : PointPair DemoPoint) (n exp vmin : Nat) (m : Bytes),
        vrpMsgHash demoCaps ac vc n exp vmin m =
          demoCaps.hash256 "ChainCA.VRP"
            [demoCaps.pairBytes ac, demoCaps.pairBytes vc, uint64le n, uint64le exp,
              uint64le vmin, m]) ∧
      (∀ x, (uint64le x).length = 8 ∧
        ∀ i, i < 8 → ((uint64le x).getD i 0).val = x / 256 ^ i % 256) ∧
      tr.brs = demoCaps.CreateBorromeanRingSignature
        (vrpMsgHash demoCaps demoAC (demoVC 200 7) 8 0 0 [])
        [demoCaps.G, demoCaps.J] tr.PQ tr.b tr.j tr.ct ∧
      ∃ p PQ, CreateValueRangeProof demoCaps demoAC (demoVC 200 7) 8 200
            (List.replicate 15 zero32) 7 [] [] [] = .ok p ∧
        p.brs = tr.brs ∧
        vrpMsgHash demoCaps demoAC (demoVC 200 7) p.nbits p.exp p.vmin [] =
          vrpMsgHash demoCaps demoAC (demoVC 200 7) 8 0 0 [] ∧
        Validate demoCaps p demoAC (demoVC 200 7) [] =
          .ok (demoCaps.brsValidate p.brs (vrpMsgHash demoCaps demoAC (demoVC 200 7) 8 0 0 [])
            [demoCaps.G, demoCaps.J] PQ) :=
  ⟨_, createTrace_eq demoCaps demoAC (demoVC 200 7) 8 200 (List.replicate 15 zero32) 7 [] []
      (by decide) (by decide) (by decide) demo_keeps_length,
    msg_hash_binding demoCaps demoAC (demoVC 200 7) 8 200 (List.replicate 15 zero32) 7 [] [] [] _
      (createTrace_eq demoCaps demoAC (demoVC 200 7) 8 200 (List.replicate 15 zero32) 7 [] []
        (by decide) (by decide) (by decide) demo_keeps_length)⟩

/-- Claim C10: for every valid call of `CreateValueRangeProof`, given that
`EncryptPacket` returns a ciphertext of the plaintext's length `32·(2N-1)`, an
8-byte nonce and a 24-byte tag, the array `ct` handed to the ring-signature engine
has exactly `2N = n·base` slots, slot `i < 2N-1` is bytes `[32i, 32i+32)` of the
packet ciphertext, the first `2N-1` slots concatenated are the ciphertext, and the
last slot is the nonce followed by the tag. -/
theorem ciphertext_packing (env : Caps S P Sig) (AC VC : PointPair P) (N value : Nat)
    (pt : List Block32) (f : S) (idek msg : Bytes)
    (hN : N = 8 ∨ N = 16 ∨ N = 32 ∨ N = 48) (hpt : pt.length = 2 * N - 1)
    (hv : value < 2 ^ N) (hshape : PacketShape env) :
    ∃ tr, createTrace env AC VC N value pt f idek msg = .ok tr ∧
      tr.ep = env.EncryptPacket tr.pek none (tr.buf.take (32 * (2 * N - 1))) ∧
      tr.ep.ct.length = 32 * (2 * N - 1) ∧
      tr.brs = env.CreateBorromeanRingSignature tr.msghash [env.G, env.J] tr.PQ tr.b tr.j
        tr.ct ∧
      tr.ct.length = 2 * N ∧ 2 * N = N / 2 * base ∧
      (∀ i, i < 2 * N - 1 → (tr.ct.getD i zero32).val = (tr.ep.ct.drop (32 * i)).take 32) ∧
      ((tr.ct.take (2 * N - 1)).map Subtype.val).flatten = tr.ep.ct ∧
      (tr.ct.getD (2 * N - 1) zero32).val = tr.ep.nonce ++ tr.ep.mac := by
  have henc : EncryptKeepsLength env := fun k n p => (hshape k n p).1
  have hct := createPacket_length env AC VC N pt f idek msg hpt henc
  have hnm := hshape
    (env.hash256 "ChainCA.pek" [vrpMsgHash env AC VC N 0 0 msg, idek, env.scalarBytes f])
    none ((fillBuf pt 0 (List.replicate (32 * (2 * N - 1)) 0)).take (32 * (2 * N - 1)))
  refine ⟨_, createTrace_eq env AC VC N value pt f idek msg hN hpt hv henc, rfl, hct, rfl,
    ctSpec_length N _ (by omega), by simp only [base]; omega,
    fun i hi => ctSpec_getD N _ i hi hct, ctSpec_take N _ hct, ctSpec_last N _ hnm.2.1 hnm.2.2⟩

/-- Claim C10 applies to the concrete instance: `N = 8`, `value = 200`. -/
theorem ciphertext_packing_witness :
    (8 = 8 ∨ 8 = 16 ∨ 8 = 32 ∨ 8 = 48) ∧ (List.replicate 15 zero32).length = 2 * 8 - 1 ∧
      200 < 2 ^ 8 ∧ PacketShape demoCaps ∧
      ∃ tr, createTrace demoCaps demoAC (demoVC 200 7) 8 200 (List.replicate 15 zero32) 7 [] [] =
          .ok tr ∧
        tr.ep = demoCaps.EncryptPacket tr.pek none (tr.buf.take (32 * (2 * 8 - 1))) ∧
        tr.ep.ct.length = 32 * (2 * 8 - 1) ∧
        tr.brs = demoCaps.CreateBorromeanRingSignature tr.msghash [demoCaps.G, demoCaps.J]
          tr.PQ tr.b tr.j tr.ct ∧
        tr.ct.length = 2 * 8 ∧ 2 * 8 = 8 / 2 * base ∧
        (∀ i, i < 2 * 8 - 1 → (tr.ct.getD i zero32).val = (tr.ep.ct.drop (32 * i)).take 32) ∧
        ((tr.ct.take (2 * 8 - 1)).map Subtype.val).flatten = tr.ep.ct ∧
        (tr.ct.getD (2 * 8 - 1) zero32).val = tr.ep.nonce ++ tr.ep.mac :=
  ⟨by decide, by decide, by decide, fun _ _ _ => ⟨rfl, rfl, rfl⟩,
    ciphertext_packing demoCaps demoAC (demoVC 200 7) 8 200 (List.replicate 15 zero32) 7 [] []
      (by decide) (by decide) (by decide) (fun _ _ _ => ⟨rfl, rfl, rfl⟩)⟩

/-- Claim C11: in every run of `CreateValueRangeProof` that returns, with `n = N/2`,
the returned proof has `nbits = N`, `exp = 0`, `vmin = 0` and exactly `n - 1`
retained digit pairs, which are the pairs `DB[t] = (D[t], B[t])` for `t = 0..n-2` in
order, each the pair the closure built from the masked value and `b[t]`; `DB` has
`n` pairs and the pair for `t = n - 1` is not stored. -/
theorem returned_proof_shape (env : Caps S P Sig) (AC VC : PointPair P) (N value : Nat)
    (pt : List Block32) (f : S) (idek vek msg : Bytes) (tr : CreateTrace S P Sig)
    (htr : createTrace env AC VC N value pt f idek msg = .ok tr) :
    ∃ p, CreateValueRangeProof env AC VC N value pt f idek vek msg = .ok p ∧
      p.nbits = N ∧ p.exp = 0 ∧ p.vmin = 0 ∧ p.brs = tr.brs ∧
      tr.DB.length = N / 2 ∧ p.digits.length = N / 2 - 1 ∧
      (∀ t, t < N / 2 - 1 → p.digits[t]? = tr.DB[t]?) ∧
      p.digits[N / 2 - 1]? = none ∧
      (∀ t, t < N / 2 → tr.DB[t]? = some
        (((value &&& (3 <<< (2 * t)) : Nat) : S) • AC.1 + tr.b.getD t 0 • env.G,
          ((value &&& (3 <<< (2 * t)) : Nat) : S) • AC.2 + tr.b.getD t 0 • env.J)) := by
  obtain ⟨hN, hv, ct, -, rfl⟩ := createTrace_spec env AC VC N value pt f idek msg tr htr
  have hlo : 8 ≤ N := by omega
  have hhi : N ≤ 48 := by omega
  have e5 : u64sub (N / 2) 1 = N / 2 - 1 := u64sub_one (by omega) (by omega)
  refine ⟨_, by unfold CreateValueRangeProof; rw [htr], rfl, rfl, rfl, rfl, by simp [createSpec],
    ?_, ?_, ?_, ?_⟩
  · simp only [createSpec, e5, List.length_take, List.length_map, List.length_range]
    omega
  · intro t ht
    simp only [createSpec, e5]
    rw [List.getElem?_take_of_lt ht]
  · simp only [createSpec, e5]
    rw [List.getElem?_eq_none]
    simp
  · intro t ht
    simp only [createSpec]
    rw [List.getElem?_map, List.getElem?_range ht, ← digitVal_mask value t (by omega)]
    rfl

/-- Claim C11 applies to the concrete instance: `N = 8`, `value = 200`. -/
theorem returned_proof_shape_witness :
    ∃ tr, createTrace demoCaps demoAC (demoVC 200 7) 8 200 (List.replicate 15 zero32) 7 [] [] =
        .ok tr ∧
      ∃ p, CreateValueRangeProof demoCaps demoAC (demoVC 200 7) 8 200
            (List.replicate 15 zero32) 7 [] [] [] = .ok p ∧
        p.nbits = 8 ∧ p.exp = 0 ∧ p.vmin = 0 ∧ p.brs = tr.brs ∧
        tr.DB.length = 8 / 2 ∧ p.digits.length = 8 / 2 - 1 ∧
        (∀ t, t < 8 / 2 - 1 → p.digits[t]? = tr.DB[t]?) ∧
        p.digits[8 / 2 - 1]? = none ∧
        (∀ t, t < 8 / 2 → tr.DB[t]? = some
          (((200 &&& (3 <<< (2 * t)) : Nat) : DemoScalar) • demoAC.1 +
              tr.b.getD t 0 • demoCaps.G,
            ((200 &&& (3 <<< (2 * t)) : Nat) : DemoScalar) • demoAC.2 +
              tr.b.getD t 0 • demoCaps.J)) :=
  ⟨_, createTrace_eq demoCaps demoAC (demoVC 200 7) 8 200 (List.replicate 15 zero32) 7 [] []
      (by decide) (by decide) (by decide) demo_keeps_length,
    returned_proof_shape demoCaps demoAC (demoVC 200 7) 8 200 (List.replicate 15 zero32) 7 [] []
      [] _ (createTrace_eq demoCaps demoAC (demoVC 200 7) 8 200 (List.replicate 15 zero32) 7 [] []
        (by decide) (by decide) (by decide) demo_keeps_length)⟩

/-- Claim C12, as amended: in every run of `CreateValueRangeProof` that returns, on
`2N - 1` auxiliary slots, the plaintext `buf[:32*(2N-1)]` passed to `EncryptPacket`
is the concatenation of the caller's auxiliary slots `pt[0], ..., pt[2N-2]`,
`32·(2N-1)` bytes; the digit commitment points are no part of it. -/
theorem packet_plaintext_is_aux (env : Caps S P Sig) (AC VC : PointPair P) (N value : Nat)
    (pt : List Block32) (f : S) (idek msg : Bytes) (tr : CreateTrace S P Sig)
    (htr : createTrace env AC VC N value pt f idek msg = .ok tr)
    (hpt : pt.length = 2 * N - 1) :
    tr.ep = env.EncryptPacket tr.pek none (tr.buf.take (32 * (2 * N - 1))) ∧
      tr.buf.take (32 * (2 * N - 1)) = (pt.map Subtype.val).flatten ∧
      (tr.buf.take (32 * (2 * N - 1))).length = 32 * (2 * N - 1) := by
  obtain ⟨hN, hv, ct, -, rfl⟩ := createTrace_spec env AC VC N value pt f idek msg tr htr
  have hb : (createSpec env AC VC N value pt f idek msg ct).buf = (pt.map Subtype.val).flatten :=
    fillBuf_flatten pt (2 * N - 1) hpt
  have hl : ((pt.map Subtype.val).flatten).length = 32 * (2 * N - 1) := by
    rw [aux_flatten_length, hpt]
  have ht : (createSpec env AC VC N value pt f idek msg ct).buf.take (32 * (2 * N - 1)) =
      (pt.map Subtype.val).flatten := by
    rw [hb, ← hl, List.take_length]
  exact ⟨rfl, ht, by rw [ht, hl]⟩

/-- The amended claim C12 applies to the concrete instance: `N = 8`, 15 zero slots. -/
theorem packet_plaintext_is_aux_witness :
    ∃ tr, createTrace demoCaps demoAC (demoVC 200 7) 8 200 (List.replicate 15 zero32) 7 [] [] =
        .ok tr ∧ (List.replicate 15 zero32).length = 2 * 8 - 1 ∧
      tr.ep = demoCaps.EncryptPacket tr.pek none (tr.buf.take (32 * (2 * 8 - 1))) ∧
      tr.buf.take (32 * (2 * 8 - 1)) = ((List.replicate 15 zero32).map Subtype.val).flatten ∧
      (tr.buf.take (32 * (2 * 8 - 1))).length = 32 * (2 * 8 - 1) :=
  ⟨_, createTrace_eq demoCaps demoAC (demoVC 200 7) 8 200 (List.replicate 15 zero32) 7 [] []
      (by decide) (by decide) (by decide) demo_keeps_length, by decide,
    packet_plaintext_is_aux demoCaps demoAC (demoVC 200 7) 8 200 (List.replicate 15 zero32) 7 [] []
      _ (createTrace_eq demoCaps demoAC (demoVC 200 7) 8 200 (List.replicate 15 zero32) 7 [] []
        (by decide) (by decide) (by decide) demo_keeps_length) (by decide)⟩

/-- Claim C12 as stated fails: with `N = 8`, `value = 200` and 15 auxiliary slots the
plaintext passed to `EncryptPacket` has 480 bytes, so under no 32-byte point encoding
is it the concatenation of the encodings of the three retained digit pairs, which
has 192 bytes. -/
theorem packet_plaintext_is_not_digit_points :
    ∃ tr p, createTrace demoCaps demoAC (demoVC 200 7) 8 200 (List.replicate 15 zero32) 7 [] [] =
        .ok tr ∧
      CreateValueRangeProof demoCaps demoAC (demoVC 200 7) 8 200 (List.replicate 15 zero32) 7
        [] [] [] = .ok p ∧
      p.digits = tr.DB.take (8 / 2 - 1) ∧
      tr.ep = demoCaps.EncryptPacket tr.pek none (tr.buf.take (32 * (2 * 8 - 1))) ∧
      ∀ enc : DemoPoint → Block32,
        tr.buf.take (32 * (2 * 8 - 1)) ≠
          (p.digits.map (fun d => (enc d.1).val ++ (enc d.2).val)).flatten := by
  have htr := createTrace_eq demoCaps demoAC (demoVC 200 7) 8 200 (List.replicate 15 zero32) 7
    [] [] (by decide) (by decide) (by decide) demo_keeps_length
  refine ⟨_, _, htr, by unfold CreateValueRangeProof; rw [htr], rfl, rfl, ?_⟩
  intro enc h
  have h1 := congrArg List.length h
  rw [flatten_length_const _ 64 (fun d => by
    rw [List.length_append, (enc d.1).property, (enc d.2).property])] at h1
  have hb : (createSpec demoCaps demoAC (demoVC 200 7) 8 200 (List.replicate 15 zero32) 7 [] []
      (ctSpec 8 (createPacket demoCaps demoAC (demoVC 200 7) 8 (List.replicate 15 zero32) 7
        [] []))).buf = ((List.replicate 15 zero32).map Subtype.val).flatten :=
    fillBuf_flatten _ 15 (by decide)
  have hd : ((createSpec demoCaps demoAC (demoVC 200 7) 8 200 (List.replicate 15 zero32) 7 [] []
      (ctSpec 8 (createPacket demoCaps demoAC (demoVC 200 7) 8 (List.replicate 15 zero32) 7
        [] []))).DB.take (8 / 2 - 1)).length = 3 := by
    simp only [createSpec, List.length_take, List.length_map, List.length_range]
    decide
  rw [hb, List.length_take, aux_flatten_length, List.length_replicate] at h1
  have e5 : u64sub (8 / 2) 1 = 8 / 2 - 1 := by decide
  change 32 * (2 * 8 - 1) ⊓ 32 * 15 = 64 * (List.take (u64sub (8 / 2) 1) _).length at h1
  rw [e5, hd] at h1
  norm_num at h1

/-- Claim C13: for every 64-bit value `v`, asset commitment `ac` and key `vek`, with
`(vc, f) = CreateValueCommitment(v, ac, vek)` and `buf` what `EncryptValue(vc, v, f,
vek, out)` writes into a buffer of `EncryptedValueSize` bytes, `DecryptValue(buf, vc,
ac, vek)` returns `(v, f, true)`; the packet capability has its sizes and decrypts
what it encrypted, and the scalar encoding decodes. -/
theorem value_round_trip [DecidableEq P] (env : ValueCaps S P) (hshape : ValuePacketShape env)
    (hcodec : ScalarCodec env) (hround : PacketRoundTrip env) (v : Nat) (hv : v < 2 ^ 64)
    (ac : PointPair P) (vek out : Bytes) (hout : out.length = EncryptedValueSize) :
    ∃ buf, EncryptValue env (CreateValueCommitment env v ac vek).1 v
          (CreateValueCommitment env v ac vek).2 vek out = .ok buf ∧
      buf.length = EncryptedValueSize ∧
      DecryptValue env buf (CreateValueCommitment env v ac vek).1 ac vek =
        (v, (CreateValueCommitment env v ac vek).2, true) := by
  obtain ⟨he, hn, hc, hm⟩ := encryptValue_eq env hshape (CreateValueCommitment env v ac vek).1 v
    (CreateValueCommitment env v ac vek).2 (hcodec _).1 vek out hout
  have hlen : ((valuePacket env (CreateValueCommitment env v ac vek).1 v
        (CreateValueCommitment env v ac vek).2 vek).nonce ++
      (valuePacket env (CreateValueCommitment env v ac vek).1 v
        (CreateValueCommitment env v ac vek).2 vek).ct ++
      (valuePacket env (CreateValueCommitment env v ac vek).1 v
        (CreateValueCommitment env v ac vek).2 vek).mac).length = EncryptedValueSize := by
    rw [List.length_append, List.length_append, hn, hc, hm]
    rfl
  refine ⟨_, he, hlen, ?_⟩
  unfold DecryptValue
  rw [if_neg (by rw [hlen]; exact fun h => h rfl), parsePacket_wire _ _ _ hn hc]
  have hd : env.DecryptPacket (env.packetKey vek (CreateValueCommitment env v ac vek).1)
      ⟨(valuePacket env (CreateValueCommitment env v ac vek).1 v
          (CreateValueCommitment env v ac vek).2 vek).ct,
        (valuePacket env (CreateValueCommitment env v ac vek).1 v
          (CreateValueCommitment env v ac vek).2 vek).nonce,
        (valuePacket env (CreateValueCommitment env v ac vek).1 v
          (CreateValueCommitment env v ac vek).2 vek).mac⟩ =
      some (uint64le v ++ env.scalarBytes (CreateValueCommitment env v ac vek).2) :=
    hround _ none _
  rw [hd]
  have h8 : (uint64le v).length = 8 := uint64le_length v
  have hp : (uint64le v ++ env.scalarBytes (CreateValueCommitment env v ac vek).2).length = 40 := by
    rw [List.length_append, h8, (hcodec _).1]
  have ht : (uint64le v ++ env.scalarBytes (CreateValueCommitment env v ac vek).2).take 8 =
      uint64le v := by
    rw [← h8, List.take_left]
  have hdr : (uint64le v ++ env.scalarBytes (CreateValueCommitment env v ac vek).2).drop 8 =
      env.scalarBytes (CreateValueCommitment env v ac vek).2 := by
    rw [← h8, List.drop_left]
  simp only [hp, ne_eq, not_true_eq_false, if_false, hdr, (hcodec _).2, ht,
    uint64FromLE_uint64le v hv]
  exact if_pos rfl

/-- Claim C13 applies to the test's input: `v = 17`, the key "value encryption key",
the asset commitment of the zero asset id without blinding key. -/
theorem value_round_trip_witness :
    ValuePacketShape demoValueCaps ∧ ScalarCodec demoValueCaps ∧
      PacketRoundTrip demoValueCaps ∧ 17 < 2 ^ 64 ∧
      (List.replicate 72 (0 : Byte)).length = EncryptedValueSize ∧
      ∃ buf, EncryptValue demoValueCaps
            (CreateValueCommitment demoValueCaps 17 demoValueAC demoVek).1 17
            (CreateValueCommitment demoValueCaps 17 demoValueAC demoVek).2 demoVek
            (List.replicate 72 0) = .ok buf ∧
        buf.length = EncryptedValueSize ∧
        DecryptValue demoValueCaps buf
            (CreateValueCommitment demoValueCaps 17 demoValueAC demoVek).1 demoValueAC demoVek =
          (17, (CreateValueCommitment demoValueCaps 17 demoValueAC demoVek).2, true) :=
  ⟨demo_value_shape, demo_value_codec, demo_value_round, by norm_num, by decide,
    value_round_trip demoValueCaps demo_value_shape demo_value_codec demo_value_round 17
      (by norm_num) demoValueAC demoVek (List.replicate 72 0) (by decide)⟩

/-- Claim C14: for every buffer `buf` that `EncryptValue` produces and every flip of
one bit of it (byte index `i`, bit `j < 8`), `DecryptValue` on the flipped buffer with
the same `vc`, `ac` and `vek` returns value 0, the zero scalar and `ok = false`; the
packet capability has its sizes and fails closed on a packet one bit off. -/
theorem decrypt_fails_closed [DecidableEq P] (env : ValueCaps S P)
    (hshape : ValuePacketShape env) (hcodec : ScalarCodec env) (hclosed : FailsClosed env)
    (vc ac : PointPair P) (value : Nat) (f : S) (vek out : Bytes)
    (hout : out.length = EncryptedValueSize) (i j : Nat) (hi : i < EncryptedValueSize)
    (hj : j < 8) :
    ∃ buf, EncryptValue env vc value f vek out = .ok buf ∧ buf.length = EncryptedValueSize ∧
      DecryptValue env (flipBit buf i j) vc ac vek = (0, 0, false) := by
  obtain ⟨he, hn, hc, hm⟩ := encryptValue_eq env hshape vc value f (hcodec f).1 vek out hout
  have hlen : ((valuePacket env vc value f vek).nonce ++ (valuePacket env vc value f vek).ct ++
      (valuePacket env vc value f vek).mac).length = EncryptedValueSize := by
    rw [List.length_append, List.length_append, hn, hc, hm]
    rfl
  refine ⟨_, he, hlen, ?_⟩
  have hoff := flipped_packet _ _ _ hn hc hm i j hi hj
  have hd := hclosed (env.packetKey vek vc) none (uint64le value ++ env.scalarBytes f) _ hoff
  unfold DecryptValue
  rw [if_neg (by rw [flipBit_length, hlen]; exact fun h => h rfl), hd]

/-- Claim C14 applies to the test's input, with bit 3 of byte 20 flipped. -/
theorem decrypt_fails_closed_witness :
    ValuePacketShape demoValueCaps ∧ ScalarCodec demoValueCaps ∧ FailsClosed demoValueCaps ∧
      (List.replicate 72 (0 : Byte)).length = EncryptedValueSize ∧ 20 < EncryptedValueSize ∧
      3 < 8 ∧
      ∃ buf, EncryptValue demoValueCaps
            (CreateValueCommitment demoValueCaps 17 demoValueAC demoVek).1 17
            (CreateValueCommitment demoValueCaps 17 demoValueAC demoVek).2 demoVek
            (List.replicate 72 0) = .ok buf ∧
        buf.length = EncryptedValueSize ∧
        DecryptValue demoValueCaps (flipBit buf 20 3)
            (CreateValueCommitment demoValueCaps 17 demoValueAC demoVek).1 demoValueAC demoVek =
          (0, 0, false) :=
  ⟨demo_value_shape, demo_value_codec, demo_value_closed, by decide, by decide, by decide,
    decrypt_fails_closed demoValueCaps demo_value_shape demo_value_codec demo_value_closed
      (CreateValueCommitment demoValueCaps 17 demoValueAC demoVek).1 demoValueAC 17
      (CreateValueCommitment demoValueCaps 17 demoValueAC demoVek).2 demoVek
      (List.replicate 72 0) (by decide) 20 3 (by decide) (by decide)⟩

/-- Claim C15: for every asset id `a`, `CreateAssetCommitment(a, nil)` returns a
commitment whose blinding component `C` is the zero point, and no blinding factor;
so it does for the test's asset id of 32 bytes `0xaa`. -/
theorem unblinded_asset_commitment (env : ValueCaps S P) :
    (∀ a : Block32, (CreateAssetCommitment env a none).1.2 = 0 ∧
        (CreateAssetCommitment env a none).2 = none) ∧
      (CreateAssetCommitment env demoAssetID none).1.2 = 0 ∧
      (CreateAssetCommitment env demoAssetID none).2 = none :=
  ⟨fun _ => ⟨rfl, rfl⟩, rfl, rfl⟩

/-- Claim C16: for every asset commitment `(H, C)`, every `n ≤ 32` and every digit
function `d`, `vrpCalcPQ` returns `n` rows of `base = 4` candidates of 2 points each,
calls `getDigit` once per `t` in increasing order (the log of the calls is
`0, ..., n-1`), and the candidate `PQ[t][i]` is
`(D_t - (i·4^t)·H, B_t - (i·4^t)·C)` for `(D_t, B_t) = d t`; `PQ[t][0]` is the digit
pair itself. -/
theorem calcPQ_matrix (ac : PointPair P) (n : Nat) (hn : n ≤ 32) (d : Nat → PointPair P) :
    ∃ PQ, vrpCalcPQ (S := S) ac n (fun t (log : List Nat) => .ok (d t, log ++ [t])) [] =
        .ok (PQ, List.range n) ∧
      PQ.length = n ∧
      ∀ t, t < n →
        (PQ.getD t []).length = base ∧
        (∀ i, i < base →
          ((PQ.getD t []).getD i []).length = 2 ∧
          (PQ.getD t []).getD i [] =
            [(d t).1 - ((i * 4 ^ t : Nat) : S) • ac.1,
              (d t).2 - ((i * 4 ^ t : Nat) : S) • ac.2]) ∧
        (PQ.getD t []).getD 0 [] = [(d t).1, (d t).2] := by
  refine ⟨pqSpec S ac n d, ?_, pqSpec_length ac n d, ?_⟩
  · rw [vrpCalcPQ_ok (S := S) ac n _ d (fun t log => log ++ [t]) (fun _ => True) [] trivial
      (fun i _ s _ => ⟨rfl, trivial⟩), foldl_log]
  · intro t ht
    have hb : basePow 1 t = 4 ^ t := by
      rw [basePow_one t (by omega)]
      apply Nat.mod_eq_of_lt
      calc 4 ^ t ≤ 4 ^ 31 := Nat.pow_le_pow_right (by norm_num) (by omega)
        _ < 2 ^ 64 := by norm_num
    rw [pqSpec_getD ac n d t ht, hb]
    refine ⟨(vrpRing_shape _ _ _).1, fun i hi => ⟨(vrpRing_shape _ _ _).2 i hi, ?_⟩, ?_⟩
    · rw [vrpRing_cand _ _ _ _ i hi]
      push_cast
      rfl
    · rw [vrpRing_eq]
      rfl

/-- Claim C16 applies to the concrete instance: `n = 4` and the digit function
`t ↦ ((t, 0), (0, t))`. -/
theorem calcPQ_matrix_witness :
    4 ≤ 32 ∧
      ∃ PQ, vrpCalcPQ (S := DemoScalar) demoAC 4
            (fun t (log : List Nat) =>
              .ok ((((t : DemoScalar), 0), (0, (t : DemoScalar))), log ++ [t])) [] =
          .ok (PQ, List.range 4) ∧
        PQ.length = 4 ∧
        ∀ t, t < 4 →
          (PQ.getD t []).length = base ∧
          (∀ i, i < base →
            ((PQ.getD t []).getD i []).length = 2 ∧
            (PQ.getD t []).getD i [] =
              [((t : DemoScalar), 0) - ((i * 4 ^ t : Nat) : DemoScalar) • demoAC.1,
                (0, (t : DemoScalar)) - ((i * 4 ^ t : Nat) : DemoScalar) • demoAC.2]) ∧
          (PQ.getD t []).getD 0 [] = [((t : DemoScalar), 0), (0, (t : DemoScalar))] :=
  ⟨by decide, calcPQ_matrix (S := DemoScalar) demoAC 4 (by decide)
    (fun t => (((t : DemoScalar), 0), (0, (t : DemoScalar))))⟩

/-- Claim C17: in every run of `CreateValueRangeProof` that returns, for every
`t < n = N/2` the secret index handed to the ring-signature engine is
`j[t] = (value >> 2t) & 3`, which is below 4, and the candidate at that column is
the commitment to zero under the signing scalar: `PQ[t][j[t]] = (b[t]·G, b[t]·J)`. -/
theorem secret_column_opens (env : Caps S P Sig) (AC VC : PointPair P) (N value : Nat)
    (pt : List Block32) (f : S) (idek msg : Bytes) (tr : CreateTrace S P Sig)
    (htr : createTrace env AC VC N value pt f idek msg = .ok tr) (t : Nat)
    (ht : t < N / 2) :
    tr.brs = env.CreateBorromeanRingSignature tr.msghash [env.G, env.J] tr.PQ tr.b tr.j
        tr.ct ∧
      tr.j[t]? = some ((value >>> (2 * t)) &&& 3) ∧
      tr.j.getD t 0 < 4 ∧
      (tr.PQ.getD t []).getD (tr.j.getD t 0) [] =
        [tr.b.getD t 0 • env.G, tr.b.getD t 0 • env.J] := by
  obtain ⟨hN, hv, ct, -, rfl⟩ := createTrace_spec env AC VC N value pt f idek msg tr htr
  have hhi : N ≤ 48 := by omega
  have ht32 : t < 32 := by omega
  have hj : (createSpec env AC VC N value pt f idek msg ct).j[t]? =
      some (digitVal value t >>> u64 (2 * t)) := by
    simp only [createSpec]
    rw [List.getElem?_map, List.getElem?_range ht]
    rfl
  have hg : (createSpec env AC VC N value pt f idek msg ct).j.getD t 0 =
      digitVal value t >>> u64 (2 * t) := by
    rw [List.getD_eq_getElem?_getD, hj]
    rfl
  rw [hg, hj, shr_and_three, digitIdx_eq value t ht32]
  refine ⟨rfl, rfl, Nat.mod_lt _ (by norm_num), ?_⟩
  rw [← digitIdx_eq value t ht32]
  simp only [createSpec]
  rw [pqSpec_getD AC _ _ t ht]
  exact ring_opening env AC value _ t ht32

/-- Claim C17 applies to the concrete instance: `N = 8`, `value = 200`, `t = 3`. -/
theorem secret_column_opens_witness :
    ∃ tr, createTrace demoCaps demoAC (demoVC 200 7) 8 200 (List.replicate 15 zero32) 7 [] [] =
        .ok tr ∧ 3 < 8 / 2 ∧
      tr.brs = demoCaps.CreateBorromeanRingSignature tr.msghash [demoCaps.G, demoCaps.J]
        tr.PQ tr.b tr.j tr.ct ∧
      tr.j[3]? = some ((200 >>> (2 * 3)) &&& 3) ∧
      tr.j.getD 3 0 < 4 ∧
      (tr.PQ.getD 3 []).getD (tr.j.getD 3 0) [] =
        [tr.b.getD 3 0 • demoCaps.G, tr.b.getD 3 0 • demoCaps.J] :=
  ⟨_, createTrace_eq demoCaps demoAC (demoVC 200 7) 8 200 (List.replicate 15 zero32) 7 [] []
      (by decide) (by decide) (by decide) demo_keeps_length, by decide,
    secret_column_opens demoCaps demoAC (demoVC 200 7) 8 200 (List.replicate 15 zero32) 7 [] [] _
      (createTrace_eq demoCaps demoAC (demoVC 200 7) 8 200 (List.replicate 15 zero32) 7 [] []
        (by decide) (by decide) (by decide) demo_keeps_length) 3 (by decide)⟩

/-- Claim C18: in every run of `CreateValueRangeProof` that returns (so
`value < 2^N`), with `n = N/2`, the component-wise sum of the `n` pairs
`(D[t], B[t])` is `(value·H + f·G, value·C + f·J)`; the masked digit values
`value & (3 << 2t)` sum to `value` and the `b[t]` sum to `f`. -/
theorem digits_aggregate (env : Caps S P Sig) (AC VC : PointPair P) (N value : Nat)
    (pt : List Block32) (f : S) (idek msg : Bytes) (tr : CreateTrace S P Sig)
    (htr : createTrace env AC VC N value pt f idek msg = .ok tr) :
    value < 2 ^ N ∧ tr.DB.length = N / 2 ∧
      tr.DB.sum = ((value : S) • AC.1 + f • env.G, (value : S) • AC.2 + f • env.J) ∧
      ((List.range (N / 2)).map (fun t => value &&& (3 <<< (2 * t)))).sum = value ∧
      tr.b.sum = f := by
  obtain ⟨hN, hv, ct, -, rfl⟩ := createTrace_spec env AC VC N value pt f idek msg tr htr
  have hlo : 8 ≤ N := by omega
  have hhi : N ≤ 48 := by omega
  have hv4 : value < 4 ^ (N / 2) := by rw [four_pow_half N hN]; exact hv
  refine ⟨hv, by simp [createSpec], ?_, ?_, ?_⟩
  · simp only [createSpec]
    exact digitPair_total env AC value (N / 2) _ f (by omega) (by omega) hv4
  · have hm : (List.range (N / 2)).map (fun t => value &&& (3 <<< (2 * t))) =
        (List.range (N / 2)).map (digitVal value) := by
      apply List.map_congr_left
      intro t ht
      rw [List.mem_range] at ht
      exact (digitVal_mask value t (by omega)).symm
    rw [hm]
    exact digitVal_sum value (N / 2) (by omega) hv4
  · simp only [createSpec]
    exact blindSpec_sum env _ f _

/-- Claim C18 applies to the concrete instance: `N = 8`, `value = 200`, `f = 7`. -/
theorem digits_aggregate_witness :
    ∃ tr, createTrace demoCaps demoAC (demoVC 200 7) 8 200 (List.replicate 15 zero32) 7 [] [] =
        .ok tr ∧ 200 < 2 ^ 8 ∧ tr.DB.length = 8 / 2 ∧
      tr.DB.sum = (((200 : Nat) : DemoScalar) • demoAC.1 + (7 : DemoScalar) • demoCaps.G,
        ((200 : Nat) : DemoScalar) • demoAC.2 + (7 : DemoScalar) • demoCaps.J) ∧
      ((List.range (8 / 2)).map (fun t => 200 &&& (3 <<< (2 * t)))).sum = 200 ∧
      tr.b.sum = 7 :=
  ⟨_, createTrace_eq demoCaps demoAC (demoVC 200 7) 8 200 (List.replicate 15 zero32) 7 [] []
      (by decide) (by decide) (by decide) demo_keeps_length,
    digits_aggregate demoCaps demoAC (demoVC 200 7) 8 200 (List.replicate 15 zero32) 7 [] [] _
      (createTrace_eq demoCaps demoAC (demoVC 200 7) 8 200 (List.replicate 15 zero32) 7 [] []
        (by decide) (by decide) (by decide) demo_keeps_length)⟩

/-- Claim C19: for every proof with `vmin = 0` and `nbits ≤ 64`, no guard of
`Validate` (lines 86-104) fires if and only if `exp ≤ 10`, `nbits + 4·exp ≤ 64` and
`10^exp·(2^nbits - 1) < 2^63` over the natural numbers; under the first two
conditions `p10` is `10^exp`, `(1<<nbits) - 1` is `2^nbits - 1` and their `uint64`
product does not wrap; when a guard fires `Validate` returns `false`, and it does so
for every proof with `nbits = 64` and `vmin = 0`. -/
theorem guards_exact_at_vmin_zero (env : Caps S P Sig) (nbits exp : Nat) (hn : nbits ≤ 64) :
    (validateGuard nbits exp 0 = false ↔
        exp ≤ 10 ∧ nbits + 4 * exp ≤ 64 ∧ 10 ^ exp * (2 ^ nbits - 1) < 2 ^ 63) ∧
      (exp ≤ 10 → nbits + 4 * exp ≤ 64 →
        validateP10 exp = 10 ^ exp ∧ u64sub (u64shl 1 nbits) 1 = 2 ^ nbits - 1 ∧
        u64 (validateP10 exp * u64sub (u64shl 1 nbits) 1) = 10 ^ exp * (2 ^ nbits - 1)) ∧
      (∀ (digits : List (PointPair P)) (brs : Sig) (ac vc : PointPair P) (msg : Bytes),
        (validateGuard nbits exp 0 = true →
          Validate env ⟨nbits, exp, 0, digits, brs⟩ ac vc msg = .ok false) ∧
        (nbits = 64 → Validate env ⟨nbits, exp, 0, digits, brs⟩ ac vc msg = .ok false)) := by
  by_cases hexp : exp ≤ 10
  · obtain ⟨h1, h2, h3⟩ := guard_table exp (by omega) nbits (by omega)
    refine ⟨⟨fun h => ⟨hexp, h1.1 h⟩, fun h => h1.2 h.2⟩, fun _ h => h2 h, ?_⟩
    intro digits brs ac vc msg
    exact ⟨fun h => validate_guarded env _ ac vc msg h,
      fun h => validate_guarded env _ ac vc msg (h3 h)⟩
  · have hg : validateGuard nbits exp 0 = true := by
      unfold validateGuard
      rw [if_pos (by omega)]
    refine ⟨⟨fun h => ?_, fun h => absurd h.1 hexp⟩, fun h => absurd h hexp, ?_⟩
    · rw [hg] at h
      exact absurd h (by decide)
    · intro digits brs ac vc msg
      exact ⟨fun h => validate_guarded env _ ac vc msg h,
        fun _ => validate_guarded env _ ac vc msg hg⟩

/-- Claim C19 applies to the concrete instance: `nbits = 64`, `exp = 0`; the proof is
rejected whatever its digits and signature. -/
theorem guards_exact_at_vmin_zero_witness :
    64 ≤ 64 ∧
      (validateGuard 64 0 0 = false ↔
        0 ≤ 10 ∧ 64 + 4 * 0 ≤ 64 ∧ 10 ^ 0 * (2 ^ 64 - 1) < 2 ^ 63) ∧
      (0 ≤ 10 → 64 + 4 * 0 ≤ 64 →
        validateP10 0 = 10 ^ 0 ∧ u64sub (u64shl 1 64) 1 = 2 ^ 64 - 1 ∧
        u64 (validateP10 0 * u64sub (u64shl 1 64) 1) = 10 ^ 0 * (2 ^ 64 - 1)) ∧
      (∀ (digits : List (PointPair DemoPoint)) (brs : List DemoScalar × List Nat)
          (ac vc : PointPair DemoPoint) (msg : Bytes),
        (validateGuard 64 0 0 = true →
          Validate demoCaps ⟨64, 0, 0, digits, brs⟩ ac vc msg = .ok false) ∧
        (64 = 64 → Validate demoCaps ⟨64, 0, 0, digits, brs⟩ ac vc msg = .ok false)) :=
  ⟨by decide, guards_exact_at_vmin_zero demoCaps 64 0 (by decide)⟩

end Claims

end ca
